import Mathlib

/-!
# Cron expression parser (`internal/parser/parser.go`)

A shallow embedding of the parser package: the bounds table, the special-token
translation, the four segment parsers, the value aggregation of `parseValues`,
`NewCronTime` and `NewCronExpression`, followed by the properties proved about
them.

Modelling conventions.

* A Go `string` is a `List Char` (`GoString`).  Every separator and every
  character the parser inspects is ASCII, so splitting a UTF-8 byte string at
  such a byte and splitting the list of its characters agree.
* A Go `int` is an `Int`; the only place where the machine width is observable
  is `strconv.Atoi`, which rejects literals outside the 64-bit signed range.
* A Go `error` is the text of its message (`Except GoString _`), a `nil` error
  is `none` / `Except.ok`.
* A `nil` slice and an empty slice are both `[]`.
-/

namespace Deliveroo

/-- A Go string, as the list of its characters. -/
abbrev GoString := List Char

/-! ## The parts of the Go standard library the parser calls -/

namespace strings

/-- Go `strings.Split(s, sep)` for a one-character separator: the pieces of `s`
between the occurrences of `sep`; a text without `sep` (the empty text too)
gives one piece. -/
def Split : GoString → Char → List GoString
  | [], _ => [[]]
  | c :: cs, sep =>
    if c = sep then [] :: Split cs sep
    else
      match Split cs sep with
      | [] => [[c]]
      | piece :: rest => (c :: piece) :: rest

/-- Go `strings.Join(elems, sep)`. -/
def Join : List GoString → GoString → GoString
  | [], _ => []
  | [e], _ => e
  | e :: es, sep => e ++ sep ++ Join es sep

end strings

namespace strconv

/-- The character of a decimal digit, `'0' + d`. -/
def digitChar (d : Nat) : Char := Char.ofNat (48 + d)

/-- Whether a character is one of `'0'`..`'9'`. -/
def isDigit (c : Char) : Bool := decide (48 ≤ c.toNat) && decide (c.toNat ≤ 57)

/-- The decimal digits of `u` pushed in front of `acc`, least significant
digit first; `fuel` bounds the number of digits written. -/
def formatDec : Nat → Nat → GoString → GoString
  | 0, _, acc => acc
  | fuel + 1, u, acc =>
    if u < 10 then digitChar u :: acc
    else formatDec fuel (u / 10) (digitChar (u % 10) :: acc)

/-- Go `strconv.Itoa`: the decimal text of an integer, with a leading `-` for a
negative one. -/
def Itoa (i : Int) : GoString :=
  if i < 0 then '-' :: formatDec (i.natAbs + 1) i.natAbs []
  else formatDec (i.natAbs + 1) i.natAbs []

/-- The digit loop of `Atoi`: `n = n*10 + (ch - '0')` over the characters, with
no result as soon as a character is not a digit. -/
def parseDigits : GoString → Nat → Option Nat
  | [], n => some n
  | ch :: rest, n =>
    if isDigit ch then parseDigits rest (n * 10 + (ch.toNat - 48)) else none

/-- The largest value of a Go `int` plus one (64-bit targets). -/
def intLimit : Int := 2 ^ 63

/-- Go `strconv.Atoi`, `none` standing for a non-nil error: an optional sign
`+` or `-`, then one or more decimal digits and nothing else; a value that does
not fit a 64-bit `int` is an error (`ErrRange`). -/
def Atoi (s : GoString) : Option Int :=
  match s with
  | [] => none
  | c :: rest =>
    let digits := if c = '-' ∨ c = '+' then rest else s
    match digits with
    | [] => none
    | _ :: _ =>
      match parseDigits digits 0 with
      | none => none
      | some u =>
        let n : Int := if c = '-' then -(u : Int) else (u : Int)
        if -intLimit ≤ n ∧ n < intLimit then some n else none

end strconv

/-- Go `sort.Slice(values, func(i, j) bool { return values[i] < values[j] })`
on integers: the ascending rearrangement of the slice. -/
def sortSlice (values : List Int) : List Int :=
  values.insertionSort (fun a b => a ≤ b)

/-- Go `fmt.Sprintf("%-14s", s)`: `s` followed by spaces up to a width of 14
characters. -/
def padRight14 (s : GoString) : GoString :=
  s ++ List.replicate (14 - s.length) ' '

/-! ## Constants and the bounds table -/

/-- The kind of a field; a Go `type TimeRange string`. -/
abbrev TimeRange := GoString

def Arguments : Nat := 6

def MinuteRange : TimeRange := "minute".toList
def HourRange : TimeRange := "hour".toList
def DayOfMonthRange : TimeRange := "day of month".toList
def MonthRange : TimeRange := "month".toList
def DayOfWeekRange : TimeRange := "day of week".toList

def MonthJanuary : GoString := "jan".toList
def MonthFebruary : GoString := "feb".toList
def MonthMarch : GoString := "mar".toList
def MonthApril : GoString := "apr".toList
def MonthMay : GoString := "may".toList
def MonthJune : GoString := "jun".toList
def MonthJuly : GoString := "jul".toList
def MonthAugust : GoString := "aug".toList
def MonthSeptember : GoString := "sep".toList
def MonthOctober : GoString := "oct".toList
def MonthNovember : GoString := "nov".toList
def MonthDecember : GoString := "dec".toList

def DayOfWeekMonday : GoString := "mon".toList
def DayOfWeekTuesday : GoString := "tue".toList
def DayOfWeekWednesday : GoString := "wed".toList
def DayOfWeekThursday : GoString := "thu".toList
def DayOfWeekFriday : GoString := "fri".toList
def DayOfWeekSaturday : GoString := "sat".toList
def DayOfWeekSunday : GoString := "sun".toList

structure TimeRangeData where
  Min : Int
  Max : Int
  deriving DecidableEq, Repr

def minuteRangeData : TimeRangeData := ⟨0, 59⟩
def hourRangeData : TimeRangeData := ⟨0, 23⟩
def dayOfMonthRangeData : TimeRangeData := ⟨1, 31⟩
def monthRangeData : TimeRangeData := ⟨1, 12⟩
def dayOfWeekRangeData : TimeRangeData := ⟨0, 7⟩

/-- The entries of the Go map `rangeMap`. -/
def rangeMap : List (TimeRange × TimeRangeData) :=
  [ (MinuteRange, minuteRangeData),
    (HourRange, hourRangeData),
    (DayOfMonthRange, dayOfMonthRangeData),
    (MonthRange, monthRangeData),
    (DayOfWeekRange, dayOfWeekRangeData) ]

/-- The Go expression `rangeMap[tr]`: the entry of the kind, and the zero
`TimeRangeData{}` for a key that is not in the map. -/
def rangeMapAt (tr : TimeRange) : TimeRangeData :=
  (rangeMap.lookup tr).getD ⟨0, 0⟩

/-- The five kinds, as listed by `timeRanges` in `parser_test.go`. -/
def timeRanges : List TimeRange :=
  [MinuteRange, HourRange, DayOfMonthRange, MonthRange, DayOfWeekRange]

/-- The entries of the map `months` of `ParseSpecial`. -/
def months : List (GoString × Int) :=
  [ (MonthJanuary, 1), (MonthFebruary, 2), (MonthMarch, 3), (MonthApril, 4),
    (MonthMay, 5), (MonthJune, 6), (MonthJuly, 7), (MonthAugust, 8),
    (MonthSeptember, 9), (MonthOctober, 10), (MonthNovember, 11),
    (MonthDecember, 12) ]

/-- The entries of the map `days` of `ParseSpecial`. -/
def days : List (GoString × Int) :=
  [ (DayOfWeekMonday, 1), (DayOfWeekTuesday, 2), (DayOfWeekWednesday, 3),
    (DayOfWeekThursday, 4), (DayOfWeekFriday, 5), (DayOfWeekSaturday, 6),
    (DayOfWeekSunday, 7) ]

/-- The method `func (tr TimeRange) ParseSpecial(segment string) string`. -/
def TimeRange.ParseSpecial (tr : TimeRange) (segment : GoString) : GoString :=
  if tr = MonthRange then
    match months.lookup segment with
    | some v => strconv.Itoa v
    | none => segment
  else if tr = DayOfWeekRange then
    match days.lookup segment with
    | some v =>
      -- Sunday is an edge case because it can represent both 0 and 7
      if segment = DayOfWeekSunday then "0,7".toList else strconv.Itoa v
    | none => segment
  else segment

def TimeRangeData.IsWithinBounds (tr : TimeRangeData) (i : Int) : Bool :=
  decide (i ≥ tr.Min) && decide (i ≤ tr.Max)

def DataForTimeRange (tr : TimeRange) : Except GoString TimeRangeData :=
  match rangeMap.lookup tr with
  | some d => .ok d
  | none => .error ("could not find data for time range: ".toList ++ tr)

/-! ## Segment parsers -/

structure cronTime where
  segments : List GoString
  timeRange : TimeRange
  values : List Int
  deriving DecidableEq, Repr

/-- The three results `(matches bool, values []int, err error)` of a
`valueParser`. -/
structure ParseResult where
  isMatch : Bool
  values : List Int
  err : Option GoString
  deriving DecidableEq, Repr

abbrev valueParser := GoString → TimeRange → ParseResult

/-- The bare `return` of a parser: the zero values of its named results. -/
def noMatch : ParseResult := ⟨false, [], none⟩

/-- The loop `for i := lo; i <= hi; i++ { values = append(values, i) }`. -/
def countUp (lo hi : Int) : List Int :=
  (List.range (hi + 1 - lo).toNat).map (fun (k : Nat) => lo + (k : Int))

/-- Checks if segment is unrestricted range identifier. -/
def segmentUnrestrictedRangeParser (segment : GoString) (timeRange : TimeRange) :
    ParseResult :=
  if segment ≠ "*".toList then noMatch
  else ⟨true, countUp (rangeMapAt timeRange).Min (rangeMapAt timeRange).Max, none⟩

/-- Checks if segment is just a number. -/
def segmentNumberParser (segment : GoString) (timeRange : TimeRange) : ParseResult :=
  match strconv.Atoi segment with
  | some val =>
    if !(rangeMapAt timeRange).IsWithinBounds val then
      ⟨true, [], some "value for segment out of bounds".toList⟩
    else ⟨true, [val], none⟩
  | none => noMatch

/-- Checks if segment is a range of numbers. -/
def segmentRangeParser (segment : GoString) (timeRange : TimeRange) : ParseResult :=
  if (segmentUnrestrictedRangeParser segment timeRange).isMatch then
    ⟨true, (segmentUnrestrictedRangeParser segment timeRange).values, none⟩
  else
    match strings.Split segment '-' with
    | [split0, split1] =>
      match strconv.Atoi split0 with
      | none => ⟨true, [], some "left value in range for segment is invalid".toList⟩
      | some left =>
        match strconv.Atoi split1 with
        | none => ⟨true, [], some "right value in range for segment is invalid".toList⟩
        | some right =>
          if !(rangeMapAt timeRange).IsWithinBounds left
              || !(rangeMapAt timeRange).IsWithinBounds right then
            ⟨true, [],
              some "left or right value in range for segment is out of bounds".toList⟩
          else if right < left then
            ⟨true, [],
              some "right value needs to be bigger than left value in segment".toList⟩
          else ⟨true, countUp left right, none⟩
    | _ => noMatch

/-- The loop of the divisor parser: the values `i` of the base with
`i % right == 0`, none at all when `right` is zero.  Go's `%` truncates towards
zero (`Int.tmod`). -/
def divisorFilter (rangeValues : List Int) (right : Int) : List Int :=
  rangeValues.filter (fun i => decide (right ≠ 0) && decide (Int.tmod i right = 0))

/-- The `if … else if … else` chain of the divisor parser that resolves the
left-hand side `split[0]`: the values assigned to `rangeValues`, or the error
with which the parser returns. -/
def divisorBase (split0 : GoString) (timeRange : TimeRange) : Except GoString (List Int) :=
  if (segmentUnrestrictedRangeParser split0 timeRange).isMatch then
    .ok (segmentUnrestrictedRangeParser split0 timeRange).values
  else if (segmentRangeParser split0 timeRange).isMatch then
    match (segmentRangeParser split0 timeRange).err with
    | some err => .error ("could not parse range: ".toList ++ err)
    | none => .ok (segmentRangeParser split0 timeRange).values
  else
    .error "left value in segment needs to be a range or unrestricted (*)".toList

/-- Checks if segment is unrestricted range with divisor. -/
def segmentDivisorParser (segment : GoString) (timeRange : TimeRange) : ParseResult :=
  match strings.Split segment '/' with
  | [split0, split1] =>
    match divisorBase split0 timeRange with
    | .error err => ⟨true, [], some err⟩
    | .ok rangeValues =>
      match strconv.Atoi split1 with
      | none => ⟨true, [], some "right value in range for segment is invalid".toList⟩
      | some right => ⟨true, divisorFilter rangeValues right, none⟩
  | _ => noMatch

/-! ## Value aggregation -/

/-- The inner loop of `parseValues`: the result of the first parser that
matches the segment, `none` when no parser does. -/
def firstMatch (parsers : List valueParser) (segment : GoString) (timeRange : TimeRange) :
    Option ParseResult :=
  match parsers with
  | [] => none
  | parser :: more =>
    if (parser segment timeRange).isMatch then some (parser segment timeRange)
    else firstMatch more segment timeRange

/-- The outer loop of `parseValues` from index `i` on, `values` being what the
earlier segments have produced. -/
def parseValuesLoop (i : Nat) (segments : List GoString) (timeRange : TimeRange)
    (parsers : List valueParser) (values : List Int) : Except GoString (List Int) :=
  match segments with
  | [] => .ok values
  | segment :: later =>
    match firstMatch parsers (TimeRange.ParseSpecial timeRange segment) timeRange with
    | some r =>
      match r.err with
      | some err =>
        .error ("error occurred for segment ".toList ++ strconv.Itoa i ++ ": ".toList ++ err)
      | none => parseValuesLoop (i + 1) later timeRange parsers (values ++ r.values)
    | none => .error ("unknown value for segment ".toList ++ strconv.Itoa i)

def parseValues (segments : List GoString) (timeRange : TimeRange)
    (parsers : List valueParser) : Except GoString (List Int) :=
  match parseValuesLoop 0 segments timeRange parsers [] with
  | .error err => .error err
  | .ok values => .ok (sortSlice values)

def cronTime.String (ct : cronTime) : GoString :=
  strings.Join (ct.values.map strconv.Itoa) " ".toList

def cronTime.Name (ct : cronTime) : GoString := ct.timeRange

def cronTime.Values (ct : cronTime) : List Int := ct.values

/-- The parser chain `NewCronTime` hands to `parseValues`.  Divisor parser takes
precedence over range parser as left side of divisor can also be a range. -/
def cronParsers : List valueParser :=
  [segmentUnrestrictedRangeParser, segmentNumberParser, segmentDivisorParser,
    segmentRangeParser]

/-- The segments `NewCronTime` builds: every comma-separated piece of `val` is
translated and split at commas again. -/
def cronSegments (val : GoString) (tr : TimeRange) : List GoString :=
  (strings.Split val ',').flatMap
    (fun segment => strings.Split (TimeRange.ParseSpecial tr segment) ',')

def NewCronTime (val : GoString) (tr : TimeRange) : Except GoString cronTime :=
  match parseValues (cronSegments val tr) tr cronParsers with
  | .error err => .error ("could not parse cron time: ".toList ++ err)
  | .ok values => .ok ⟨cronSegments val tr, tr, values⟩

/-! ## Expressions -/

structure CronExpression where
  Minute : cronTime
  Hour : cronTime
  DayOfMonth : cronTime
  Month : cronTime
  DayOfWeek : cronTime
  Command : GoString
  deriving DecidableEq, Repr

def NewCronExpression (expr : GoString) : Except GoString CronExpression :=
  let args := strings.Split expr ' '
  if args.length ≠ Arguments then
    .error ("expected ".toList ++ strconv.Itoa Arguments ++ " arguments, recieved ".toList
      ++ strconv.Itoa args.length)
  else
    match NewCronTime (args.getD 0 []) MinuteRange with
    | .error err => .error ("minute value could not be parsed: ".toList ++ err)
    | .ok minute =>
    match NewCronTime (args.getD 1 []) HourRange with
    | .error err => .error ("hour value could not be parsed: ".toList ++ err)
    | .ok hour =>
    match NewCronTime (args.getD 2 []) DayOfMonthRange with
    | .error err => .error ("day of month value could not be parsed: ".toList ++ err)
    | .ok dayOfMonth =>
    match NewCronTime (args.getD 3 []) MonthRange with
    | .error err => .error ("month value could not be parsed: ".toList ++ err)
    | .ok month =>
    match NewCronTime (args.getD 4 []) DayOfWeekRange with
    | .error err => .error ("day of week value could not be parsed: ".toList ++ err)
    | .ok dayOfWeek =>
      .ok ⟨minute, hour, dayOfMonth, month, dayOfWeek, args.getD 5 []⟩

def CronExpression.String (ce : CronExpression) : GoString :=
  padRight14 ce.Minute.Name ++ ce.Minute.String ++ "\n".toList
    ++ (padRight14 ce.Hour.Name ++ ce.Hour.String ++ "\n".toList)
    ++ (padRight14 ce.DayOfMonth.Name ++ ce.DayOfMonth.String ++ "\n".toList)
    ++ (padRight14 ce.Month.Name ++ ce.Month.String ++ "\n".toList)
    ++ (padRight14 ce.DayOfWeek.Name ++ ce.DayOfWeek.String ++ "\n".toList)
    ++ (padRight14 "command".toList ++ ce.Command ++ "\n".toList)

/-- The values of a field that was built, `none` when `NewCronTime` returned an
error: what a caller reads with `ct.Values()` after checking `err == nil`. -/
def valuesOf (r : Except GoString cronTime) : Option (List Int) :=
  match r with
  | .ok ct => some ct.Values
  | .error _ => none

/-- One turn of the loop of `parseValues`, the index left out: the values of
the first parser that matches the translated segment, `none` when the turn
returns an error (a parser's error, or no parser matching). -/
def segmentValues (parsers : List valueParser) (timeRange : TimeRange)
    (segment : GoString) : Option (List Int) :=
  match firstMatch parsers (TimeRange.ParseSpecial timeRange segment) timeRange with
  | some r =>
    match r.err with
    | some _ => none
    | none => some r.values
  | none => none

/-- The turns of the loop of `parseValues` over all the segments: the values
appended in the order of the segments, `none` as soon as a turn fails. -/
def segmentsValues (parsers : List valueParser) (timeRange : TimeRange) :
    List GoString → Option (List Int)
  | [] => some []
  | segment :: later =>
    match segmentValues parsers timeRange segment, segmentsValues parsers timeRange later with
    | some v, some vs => some (v ++ vs)
    | _, _ => none

/-- The error of `parseValues` reports the segment index `i`: its message is
`unknown value for segment i`, or `error occurred for segment i: ` followed by
the error of a parser. -/
def reportsSegment (i : Nat) (err : GoString) : Prop :=
  err = "unknown value for segment ".toList ++ strconv.Itoa i ∨
  ∃ e : GoString,
    err = "error occurred for segment ".toList ++ strconv.Itoa i ++ ": ".toList ++ e

/-! ## Splitting -/

theorem Split_ne_nil (s : GoString) (sep : Char) : strings.Split s sep ≠ [] := by
  induction s with
  | nil => simp [strings.Split]
  | cons c cs ih =>
    unfold strings.Split
    split
    · simp
    · split <;> simp

theorem Split_of_not_mem (s : GoString) (sep : Char) (h : sep ∉ s) :
    strings.Split s sep = [s] := by
  induction s with
  | nil => rfl
  | cons c cs ih =>
    have hc : c ≠ sep := fun e => h (by simp [e])
    have hcs : sep ∉ cs := fun e => h (by simp [e])
    simp [strings.Split, hc, ih hcs]

theorem Split_append_sep (a b : GoString) (sep : Char) :
    strings.Split (a ++ sep :: b) sep = strings.Split a sep ++ strings.Split b sep := by
  induction a with
  | nil => simp [strings.Split]
  | cons c cs ih =>
    by_cases hc : c = sep
    · simp [strings.Split, hc, ih]
    · obtain ⟨p, r, hpr⟩ : ∃ p r, strings.Split cs sep = p :: r := by
        cases h : strings.Split cs sep with
        | nil => exact absurd h (Split_ne_nil cs sep)
        | cons p r => exact ⟨p, r, rfl⟩
      simp [strings.Split, hc, ih, hpr]

theorem Split_two (a b : GoString) (sep : Char) (ha : sep ∉ a) (hb : sep ∉ b) :
    strings.Split (a ++ sep :: b) sep = [a, b] := by
  rw [Split_append_sep, Split_of_not_mem a sep ha, Split_of_not_mem b sep hb]
  rfl

theorem Split_Join (ts : List GoString) (sep : Char) (hne : ts ≠ [])
    (h : ∀ t ∈ ts, sep ∉ t) : strings.Split (strings.Join ts [sep]) sep = ts := by
  induction ts with
  | nil => exact absurd rfl hne
  | cons t rest ih =>
    cases rest with
    | nil => simpa [strings.Join] using Split_of_not_mem t sep (h t (by simp))
    | cons u more =>
      have hrest : strings.Split (strings.Join (u :: more) [sep]) sep = u :: more :=
        ih (by simp) (fun x hx => h x (List.mem_cons_of_mem _ hx))
      have : strings.Join (t :: u :: more) [sep] = t ++ sep :: strings.Join (u :: more) [sep] := by
        simp [strings.Join]
      rw [this, Split_append_sep, hrest, Split_of_not_mem t sep (h t (by simp))]
      rfl

/-! ## Decimal texts -/

theorem isDigit_digitChar (d : Nat) (h : d < 10) :
    strconv.isDigit (strconv.digitChar d) = true ∧ (strconv.digitChar d).toNat - 48 = d := by
  interval_cases d <;> decide

/-- The shape of what `formatDec` writes: a non-empty run of digits that the
digit loop of `Atoi` reads back as `u`. -/
theorem formatDec_run (fuel : Nat) : ∀ (u : Nat) (acc : GoString), u < fuel →
    ∃ ds : GoString, strconv.formatDec fuel u acc = ds ++ acc ∧ ds ≠ [] ∧
      (∀ c ∈ ds, strconv.isDigit c = true) ∧
      ∀ (rest : GoString) (m : Nat),
        strconv.parseDigits (ds ++ rest) m = strconv.parseDigits rest (m * 10 ^ ds.length + u) := by
  induction fuel with
  | zero => intro u acc h; omega
  | succ fuel ih =>
    intro u acc hu
    by_cases hlt : u < 10
    · refine ⟨[strconv.digitChar u], by simp [strconv.formatDec, hlt], by simp, ?_, ?_⟩
      · intro c hc
        rw [List.mem_singleton] at hc
        rw [hc]; exact (isDigit_digitChar u hlt).1
      · intro rest m
        simp [strconv.parseDigits, (isDigit_digitChar u hlt).1, (isDigit_digitChar u hlt).2]
    · obtain ⟨ds, hds, -, hdig, hval⟩ :=
        ih (u / 10) (strconv.digitChar (u % 10) :: acc) (by omega)
      have hmod : u % 10 < 10 := Nat.mod_lt _ (by decide)
      refine ⟨ds ++ [strconv.digitChar (u % 10)], ?_, by simp, ?_, ?_⟩
      · simp [strconv.formatDec, hlt, hds]
      · intro c hc
        rcases List.mem_append.mp hc with h | h
        · exact hdig c h
        · rw [List.mem_singleton] at h
          rw [h]; exact (isDigit_digitChar _ hmod).1
      · intro rest m
        rw [List.append_assoc, hval]
        simp only [List.singleton_append, strconv.parseDigits, (isDigit_digitChar _ hmod).1,
          (isDigit_digitChar _ hmod).2, if_true, List.length_append, List.length_singleton]
        congr 1
        rw [pow_succ]
        have := Nat.div_add_mod u 10
        nlinarith [this]

/-- The decimal text of a natural number. -/
theorem natText_run (u : Nat) :
    strconv.formatDec (u + 1) u [] ≠ [] ∧
      (∀ c ∈ strconv.formatDec (u + 1) u [], strconv.isDigit c = true) ∧
      strconv.parseDigits (strconv.formatDec (u + 1) u []) 0 = some u := by
  obtain ⟨ds, hds, hne, hdig, hval⟩ := formatDec_run (u + 1) u [] (by omega)
  rw [List.append_nil] at hds
  rw [hds]
  refine ⟨hne, hdig, ?_⟩
  have := hval [] 0
  simpa [strconv.parseDigits] using this

theorem parseDigits_digits : ∀ (ds : GoString) (n v : Nat),
    strconv.parseDigits ds n = some v → ∀ c ∈ ds, strconv.isDigit c = true := by
  intro ds
  induction ds with
  | nil => intro n v _ c hc; simp at hc
  | cons d rest ih =>
    intro n v h c hc
    unfold strconv.parseDigits at h
    by_cases hd : strconv.isDigit d = true
    · rw [if_pos hd] at h
      rcases List.mem_cons.mp hc with e | e
      · rw [e]; exact hd
      · exact ih _ _ h c e
    · rw [if_neg hd] at h
      exact absurd h (by simp)

theorem parseDigits_none (ds : GoString) (n : Nat) (x : Char) (hx : x ∈ ds)
    (hnd : strconv.isDigit x = false) : strconv.parseDigits ds n = none := by
  cases h : strconv.parseDigits ds n with
  | none => rfl
  | some v =>
    have := parseDigits_digits ds n v h x hx
    rw [hnd] at this
    exact absurd this (by simp)

/-- `Atoi` rejects a text with a character after the first that is not a
digit. -/
theorem Atoi_none_of_tail (c : Char) (t : GoString) (x : Char) (hx : x ∈ t)
    (hnd : strconv.isDigit x = false) : strconv.Atoi (c :: t) = none := by
  unfold strconv.Atoi
  by_cases hs : c = '-' ∨ c = '+'
  · simp only [hs, if_true]
    cases t with
    | nil => simp at hx
    | cons y ys => simp only []; rw [parseDigits_none (y :: ys) 0 x hx hnd]
  · simp only [hs, if_false]
    rw [parseDigits_none (c :: t) 0 x (List.mem_cons_of_mem _ hx) hnd]

/-- `Atoi` rejects a text whose first character is neither a sign nor a
digit. -/
theorem Atoi_none_of_head (c : Char) (t : GoString) (h1 : c ≠ '-') (h2 : c ≠ '+')
    (hnd : strconv.isDigit c = false) : strconv.Atoi (c :: t) = none := by
  unfold strconv.Atoi
  have hs : ¬ (c = '-' ∨ c = '+') := by simp [h1, h2]
  simp only [hs, if_false]
  rw [parseDigits_none (c :: t) 0 c (by simp) hnd]

theorem Itoa_nonneg (i : Int) (h : 0 ≤ i) :
    strconv.Itoa i = strconv.formatDec (i.natAbs + 1) i.natAbs [] := by
  unfold strconv.Itoa
  rw [if_neg (by omega)]

theorem Itoa_neg (i : Int) (h : i < 0) :
    strconv.Itoa i = '-' :: strconv.formatDec (i.natAbs + 1) i.natAbs [] := by
  unfold strconv.Itoa
  rw [if_pos h]

theorem Itoa_ne_nil (i : Int) : strconv.Itoa i ≠ [] := by
  by_cases h : i < 0
  · rw [Itoa_neg i h]; simp
  · rw [Itoa_nonneg i (by omega)]; exact (natText_run _).1

/-- The text of a non-negative integer is made of digits only. -/
theorem Itoa_digits (i : Int) (h : 0 ≤ i) : ∀ c ∈ strconv.Itoa i, strconv.isDigit c = true := by
  rw [Itoa_nonneg i h]; exact (natText_run _).2.1

/-- The text of any integer is made of digits and, for a negative one, a
leading `-`. -/
theorem Itoa_chars (i : Int) : ∀ c ∈ strconv.Itoa i, strconv.isDigit c = true ∨ c = '-' := by
  by_cases h : i < 0
  · rw [Itoa_neg i h]
    intro c hc
    rcases List.mem_cons.mp hc with e | e
    · exact Or.inr e
    · exact Or.inl ((natText_run _).2.1 c e)
  · intro c hc
    exact Or.inl (Itoa_digits i (by omega) c hc)

/-- Reading back the text of an integer: `Atoi` returns the integer when it fits
the 64-bit `int` and an error otherwise. -/
theorem Atoi_Itoa (i : Int) :
    strconv.Atoi (strconv.Itoa i)
      = if -strconv.intLimit ≤ i ∧ i < strconv.intLimit then some i else none := by
  obtain ⟨hne, hdig, hval⟩ := natText_run i.natAbs
  by_cases h : i < 0
  · rw [Itoa_neg i h]
    unfold strconv.Atoi
    simp only [true_or, if_true]
    cases hf : strconv.formatDec (i.natAbs + 1) i.natAbs [] with
    | nil => exact absurd hf hne
    | cons y ys =>
      simp only []
      rw [← hf, hval]
      have hi : -((i.natAbs : Nat) : Int) = i := by omega
      simp only [hi]
  · rw [Itoa_nonneg i (by omega)]
    cases hf : strconv.formatDec (i.natAbs + 1) i.natAbs [] with
    | nil => exact absurd hf hne
    | cons y ys =>
      have hy : strconv.isDigit y = true := hdig y (by rw [hf]; simp)
      have h1 : y ≠ '-' := by rintro rfl; revert hy; decide
      have h2 : y ≠ '+' := by rintro rfl; revert hy; decide
      unfold strconv.Atoi
      simp only [h1, h2, or_self, if_false]
      rw [← hf, hval]
      have hi : ((i.natAbs : Nat) : Int) = i := by omega
      simp only [hi]

/-! ## Bounds, ranges and the divisor filter -/

theorem mem_countUp (lo hi v : Int) : v ∈ countUp lo hi ↔ lo ≤ v ∧ v ≤ hi := by
  unfold countUp
  simp only [List.mem_map, List.mem_range]
  constructor
  · rintro ⟨k, hk, rfl⟩
    omega
  · rintro ⟨h1, h2⟩
    exact ⟨(v - lo).toNat, by omega, by omega⟩

theorem countUp_sorted (lo hi : Int) : (countUp lo hi).Sorted (fun a b => a < b) := by
  unfold countUp
  exact List.Pairwise.map _ (fun a b hab => by omega) (List.pairwise_lt_range _)

theorem countUp_nat (a b : Nat) :
    countUp (a : Int) (b : Int) = (List.range' a (b + 1 - a)).map Int.ofNat := by
  unfold countUp
  have h : ((b : Int) + 1 - (a : Int)).toNat = b + 1 - a := by omega
  rw [h, List.range'_eq_map_range, List.map_map]
  apply List.map_congr_left
  intro k _
  simp

theorem sortSlice_of_sorted (l : List Int) (h : l.Sorted (fun a b => a < b)) :
    sortSlice l = l := by
  unfold sortSlice
  exact List.Sorted.insertionSort_eq (List.Pairwise.imp (fun hab => le_of_lt hab) h)

theorem mem_divisorFilter (l : List Int) (n v : Int) :
    v ∈ divisorFilter l n ↔ v ∈ l ∧ n ≠ 0 ∧ n ∣ v := by
  unfold divisorFilter
  simp only [List.mem_filter, Bool.and_eq_true, decide_eq_true_eq, Int.dvd_iff_tmod_eq_zero]

theorem divisorFilter_sorted (l : List Int) (n : Int) (h : l.Sorted (fun a b => a < b)) :
    (divisorFilter l n).Sorted (fun a b => a < b) :=
  List.Pairwise.filter _ h

/-- Every entry of the bounds table, and the zero value an unknown key reads,
lies between 0 and 59. -/
theorem rangeMapAt_bounds (tr : TimeRange) :
    0 ≤ (rangeMapAt tr).Min ∧ (rangeMapAt tr).Max ≤ 59 := by
  unfold rangeMapAt rangeMap
  simp only [List.lookup]
  repeat' split
  all_goals decide

theorem DataForTimeRange_ok (tr : TimeRange) (d : TimeRangeData)
    (h : DataForTimeRange tr = .ok d) : rangeMapAt tr = d ∧ tr ∈ timeRanges := by
  unfold DataForTimeRange at h
  unfold rangeMapAt
  cases hl : rangeMap.lookup tr with
  | none => rw [hl] at h; cases h
  | some d' =>
    rw [hl] at h
    injection h with h
    refine ⟨by simp [h], ?_⟩
    have hs : (rangeMap.lookup tr).isSome = true := by rw [hl]; rfl
    rw [List.lookup_isSome_iff] at hs
    obtain ⟨p, hp, he⟩ := hs
    have he' : tr = p.1 := by simpa using he
    rw [he']
    have hall : ∀ q ∈ rangeMap, q.1 ∈ timeRanges := by decide
    exact hall p hp

/-! ## Special tokens -/

/-- A text with a character below `'a'` (a digit, a sign, `*`, `/`, a comma, a
space) is in neither name table, so the translation leaves it alone. -/
theorem ParseSpecial_low (tr : TimeRange) (s : GoString) (c : Char) (hc : c ∈ s)
    (hlow : c.toNat < 97) : TimeRange.ParseSpecial tr s = s := by
  have hm : months.lookup s = none := by
    rw [List.lookup_eq_none_iff]
    intro p hp
    have : ∀ q ∈ months, ∀ x ∈ q.1, 97 ≤ x.toNat := by decide
    have hne : s ≠ p.1 := by
      rintro rfl
      exact absurd (this p hp c hc) (by omega)
    simpa using hne
  have hd : days.lookup s = none := by
    rw [List.lookup_eq_none_iff]
    intro p hp
    have : ∀ q ∈ days, ∀ x ∈ q.1, 97 ≤ x.toNat := by decide
    have hne : s ≠ p.1 := by
      rintro rfl
      exact absurd (this p hp c hc) (by omega)
    simpa using hne
  unfold TimeRange.ParseSpecial
  rw [hm, hd]
  split
  · rfl
  · split <;> rfl

theorem isDigit_low (c : Char) (h : strconv.isDigit c = true) : c.toNat < 97 := by
  unfold strconv.isDigit at h
  simp only [Bool.and_eq_true, decide_eq_true_eq] at h
  omega

theorem ParseSpecial_Itoa (tr : TimeRange) (i : Int) (rest : GoString) :
    TimeRange.ParseSpecial tr (strconv.Itoa i ++ rest) = strconv.Itoa i ++ rest := by
  cases h : strconv.Itoa i with
  | nil => exact absurd h (Itoa_ne_nil i)
  | cons c t =>
    have hc : c ∈ strconv.Itoa i := by rw [h]; simp
    refine ParseSpecial_low tr _ c (by simp) ?_
    rcases Itoa_chars i c hc with hd | rfl
    · exact isDigit_low c hd
    · decide

/-! ## The aggregation loop -/

theorem parseValuesLoop_values (parsers : List valueParser) (tr : TimeRange) :
    ∀ (segments : List GoString) (i : Nat) (acc : List Int),
      (match parseValuesLoop i segments tr parsers acc with
        | .ok vs => some vs
        | .error _ => none)
      = (segmentsValues parsers tr segments).map (fun vs => acc ++ vs) := by
  intro segments
  induction segments with
  | nil => intro i acc; simp [parseValuesLoop, segmentsValues]
  | cons seg later ih =>
    intro i acc
    unfold parseValuesLoop segmentsValues segmentValues
    cases hf : firstMatch parsers (TimeRange.ParseSpecial tr seg) tr with
    | none => simp
    | some r =>
      rcases r with ⟨m, rv, _ | e⟩
      · simp only []
        rw [ih (i + 1) (acc ++ rv)]
        cases segmentsValues parsers tr later with
        | none => simp
        | some vs => simp
      · simp

theorem valuesOf_NewCronTime (val : GoString) (tr : TimeRange) :
    valuesOf (NewCronTime val tr)
      = (segmentsValues cronParsers tr (cronSegments val tr)).map sortSlice := by
  have h := parseValuesLoop_values cronParsers tr (cronSegments val tr) 0 []
  unfold NewCronTime parseValues
  cases hl : parseValuesLoop 0 (cronSegments val tr) tr cronParsers [] with
  | error e =>
    rw [hl] at h
    cases hs : segmentsValues cronParsers tr (cronSegments val tr) with
    | none => simp [valuesOf]
    | some vs => rw [hs] at h; simp at h
  | ok vs =>
    rw [hl] at h
    cases hs : segmentsValues cronParsers tr (cronSegments val tr) with
    | none => rw [hs] at h; simp at h
    | some ws =>
      rw [hs] at h
      simp only [Option.map_some', List.nil_append, Option.some.injEq] at h
      simp [valuesOf, cronTime.Values, h]

theorem valuesOf_eq_some (val : GoString) (tr : TimeRange) (ct : cronTime)
    (h : NewCronTime val tr = .ok ct) : valuesOf (NewCronTime val tr) = some ct.Values := by
  rw [h]; rfl

theorem valuesOf_eq_none (val : GoString) (tr : TimeRange) :
    valuesOf (NewCronTime val tr) = none ↔ ∃ err, NewCronTime val tr = .error err := by
  cases h : NewCronTime val tr with
  | error e => simp [valuesOf]
  | ok ct => simp [valuesOf]

theorem segmentsValues_append (parsers : List valueParser) (tr : TimeRange)
    (xs ys : List GoString) :
    segmentsValues parsers tr (xs ++ ys)
      = match segmentsValues parsers tr xs, segmentsValues parsers tr ys with
        | some v, some w => some (v ++ w)
        | _, _ => none := by
  induction xs with
  | nil =>
    simp only [List.nil_append, segmentsValues]
    cases segmentsValues parsers tr ys <;> simp
  | cons x more ih =>
    have e1 : segmentsValues parsers tr (x :: (more ++ ys))
        = match segmentValues parsers tr x, segmentsValues parsers tr (more ++ ys) with
          | some v, some vs => some (v ++ vs)
          | _, _ => none := rfl
    have e2 : segmentsValues parsers tr (x :: more)
        = match segmentValues parsers tr x, segmentsValues parsers tr more with
          | some v, some vs => some (v ++ vs)
          | _, _ => none := rfl
    rw [List.cons_append, e1, e2, ih]
    cases segmentValues parsers tr x <;> cases segmentsValues parsers tr more <;>
      cases segmentsValues parsers tr ys <;> simp

/-! ## A single token -/

theorem cronSegments_token (s : GoString) (tr : TimeRange) (hc : ',' ∉ s)
    (hp : TimeRange.ParseSpecial tr s = s) : cronSegments s tr = [s] := by
  unfold cronSegments
  rw [Split_of_not_mem s ',' hc]
  simp [hp, Split_of_not_mem s ',' hc]

theorem valuesOf_token (s : GoString) (tr : TimeRange) (hc : ',' ∉ s)
    (hp : TimeRange.ParseSpecial tr s = s) :
    valuesOf (NewCronTime s tr)
      = match firstMatch cronParsers s tr with
        | some r =>
          match r.err with
          | some _ => none
          | none => some (sortSlice r.values)
        | none => none := by
  rw [valuesOf_NewCronTime, cronSegments_token s tr hc hp]
  simp only [segmentsValues, segmentValues, hp]
  cases firstMatch cronParsers s tr with
  | none => rfl
  | some r => rcases r with ⟨m, rv, _ | e⟩ <;> simp

theorem firstMatch_cronParsers (s : GoString) (tr : TimeRange) :
    firstMatch cronParsers s tr
      = if (segmentUnrestrictedRangeParser s tr).isMatch then
          some (segmentUnrestrictedRangeParser s tr)
        else if (segmentNumberParser s tr).isMatch then some (segmentNumberParser s tr)
        else if (segmentDivisorParser s tr).isMatch then some (segmentDivisorParser s tr)
        else if (segmentRangeParser s tr).isMatch then some (segmentRangeParser s tr)
        else none := by
  simp [firstMatch, cronParsers]

theorem unrestricted_noMatch (s : GoString) (tr : TimeRange) (h : s ≠ "*".toList) :
    segmentUnrestrictedRangeParser s tr = noMatch := by
  unfold segmentUnrestrictedRangeParser
  rw [if_pos h]

theorem number_noMatch (s : GoString) (tr : TimeRange) (h : strconv.Atoi s = none) :
    segmentNumberParser s tr = noMatch := by
  unfold segmentNumberParser
  rw [h]

theorem divisor_noMatch (s : GoString) (tr : TimeRange) (h : '/' ∉ s) :
    segmentDivisorParser s tr = noMatch := by
  unfold segmentDivisorParser
  rw [Split_of_not_mem s '/' h]

theorem range_noMatch (s : GoString) (tr : TimeRange) (hs : s ≠ "*".toList) (h : '-' ∉ s) :
    segmentRangeParser s tr = noMatch := by
  unfold segmentRangeParser
  rw [unrestricted_noMatch s tr hs, Split_of_not_mem s '-' h]
  simp [noMatch]

theorem Itoa_not_mem (i : Int) (c : Char) (hd : strconv.isDigit c = false) (hm : c ≠ '-') :
    c ∉ strconv.Itoa i := by
  intro hc
  rcases Itoa_chars i c hc with h | h
  · rw [hd] at h; exact absurd h (by simp)
  · exact hm h

theorem Itoa_nonneg_not_mem (i : Int) (hi : 0 ≤ i) (c : Char)
    (hd : strconv.isDigit c = false) : c ∉ strconv.Itoa i := by
  intro hc
  have := Itoa_digits i hi c hc
  rw [hd] at this
  exact absurd this (by simp)

theorem IsWithinBounds_iff (d : TimeRangeData) (i : Int) :
    d.IsWithinBounds i = true ↔ d.Min ≤ i ∧ i ≤ d.Max := by
  simp [TimeRangeData.IsWithinBounds]

/-- What `NewCronTime` makes of the decimal text of an integer, for any key of
the bounds table. -/
theorem valuesOf_Itoa (tr : TimeRange) (n : Int) :
    valuesOf (NewCronTime (strconv.Itoa n) tr)
      = if (rangeMapAt tr).Min ≤ n ∧ n ≤ (rangeMapAt tr).Max then some [n] else none := by
  have hcomma : ',' ∉ strconv.Itoa n := Itoa_not_mem n ',' (by decide) (by decide)
  have hslash : '/' ∉ strconv.Itoa n := Itoa_not_mem n '/' (by decide) (by decide)
  have hstar : strconv.Itoa n ≠ "*".toList := by
    intro e
    exact Itoa_not_mem n '*' (by decide) (by decide) (by rw [e]; decide)
  have hp : TimeRange.ParseSpecial tr (strconv.Itoa n) = strconv.Itoa n := by
    simpa using ParseSpecial_Itoa tr n []
  obtain ⟨hmin, hmax⟩ := rangeMapAt_bounds tr
  rw [valuesOf_token _ tr hcomma hp, firstMatch_cronParsers, unrestricted_noMatch _ tr hstar]
  by_cases hr : -strconv.intLimit ≤ n ∧ n < strconv.intLimit
  · have hA : strconv.Atoi (strconv.Itoa n) = some n := by rw [Atoi_Itoa, if_pos hr]
    by_cases hb : (rangeMapAt tr).Min ≤ n ∧ n ≤ (rangeMapAt tr).Max
    · have hw := (IsWithinBounds_iff (rangeMapAt tr) n).mpr hb
      simp [segmentNumberParser, hA, hw, hb, noMatch, sortSlice]
    · have hw : (rangeMapAt tr).IsWithinBounds n = false := by
        rw [← Bool.not_eq_true, IsWithinBounds_iff]; exact hb
      simp [segmentNumberParser, hA, hw, hb, noMatch]
  · have hA : strconv.Atoi (strconv.Itoa n) = none := by rw [Atoi_Itoa, if_neg hr]
    have hb : ¬ ((rangeMapAt tr).Min ≤ n ∧ n ≤ (rangeMapAt tr).Max) := by
      intro hb
      apply hr
      unfold strconv.intLimit
      omega
    rw [number_noMatch _ tr hA, divisor_noMatch _ tr hslash, if_neg hb]
    by_cases hneg : n < 0
    · have hsplit : strings.Split (strconv.Itoa n) '-'
          = [[], strconv.formatDec (n.natAbs + 1) n.natAbs []] := by
        rw [Itoa_neg n hneg]
        have hnd : '-' ∉ strconv.formatDec (n.natAbs + 1) n.natAbs [] := by
          intro hc
          have := (natText_run n.natAbs).2.1 _ hc
          revert this
          decide
        exact Split_two [] _ '-' (by simp) hnd
      have hrange : segmentRangeParser (strconv.Itoa n) tr
          = ⟨true, [], some "left value in range for segment is invalid".toList⟩ := by
        unfold segmentRangeParser
        rw [unrestricted_noMatch _ tr hstar, hsplit]
        simp [noMatch, strconv.Atoi]
      simp [noMatch, hrange]
    · have hdash : '-' ∉ strconv.Itoa n := Itoa_nonneg_not_mem n (by omega) '-' (by decide)
      rw [range_noMatch _ tr hstar hdash]
      simp [noMatch]

theorem rangeMapAt_min_le_max (tr : TimeRange) : (rangeMapAt tr).Min ≤ (rangeMapAt tr).Max := by
  unfold rangeMapAt rangeMap
  simp only [List.lookup]
  repeat' split
  all_goals decide

theorem countUp_length (lo hi : Int) : (countUp lo hi).length = (hi + 1 - lo).toNat := by
  simp [countUp]

theorem countUp_getElem? (lo hi : Int) (k : Nat) (hk : k < (countUp lo hi).length) :
    (countUp lo hi)[k]? = some (lo + (k : Int)) := by
  rw [countUp_length] at hk
  simp [countUp, List.getElem?_map, List.getElem?_range hk]

theorem valuesOf_star (tr : TimeRange) :
    valuesOf (NewCronTime "*".toList tr)
      = some (countUp (rangeMapAt tr).Min (rangeMapAt tr).Max) := by
  have hp : TimeRange.ParseSpecial tr "*".toList = "*".toList :=
    ParseSpecial_low tr _ '*' (by decide) (by decide)
  rw [valuesOf_token _ tr (by decide) hp, firstMatch_cronParsers]
  simp [segmentUnrestrictedRangeParser, sortSlice_of_sorted _ (countUp_sorted _ _)]

theorem segmentRangeParser_split (s : GoString) (tr : TimeRange) (x y : GoString)
    (hs : s ≠ "*".toList) (hsplit : strings.Split s '-' = [x, y]) :
    segmentRangeParser s tr
      = match strconv.Atoi x with
        | none => ⟨true, [], some "left value in range for segment is invalid".toList⟩
        | some left =>
          match strconv.Atoi y with
          | none => ⟨true, [], some "right value in range for segment is invalid".toList⟩
          | some right =>
            if !(rangeMapAt tr).IsWithinBounds left
                || !(rangeMapAt tr).IsWithinBounds right then
              ⟨true, [],
                some "left or right value in range for segment is out of bounds".toList⟩
            else if right < left then
              ⟨true, [],
                some "right value needs to be bigger than left value in segment".toList⟩
            else ⟨true, countUp left right, none⟩ := by
  unfold segmentRangeParser
  rw [unrestricted_noMatch s tr hs, hsplit]
  rfl

/-- The range parser on the text `a-b` of two non-negative integers: it always
matches, gives `a, a+1, ..., b` when both ends are within the bounds and
`a ≤ b`, and an error otherwise. -/
theorem segmentRangeParser_text (tr : TimeRange) (a b : Int) (ha : 0 ≤ a) (hb : 0 ≤ b) :
    (segmentRangeParser (strconv.Itoa a ++ '-' :: strconv.Itoa b) tr).isMatch = true ∧
    (((rangeMapAt tr).Min ≤ a ∧ a ≤ b ∧ b ≤ (rangeMapAt tr).Max) →
      segmentRangeParser (strconv.Itoa a ++ '-' :: strconv.Itoa b) tr
        = ⟨true, countUp a b, none⟩) ∧
    (¬ ((rangeMapAt tr).Min ≤ a ∧ a ≤ b ∧ b ≤ (rangeMapAt tr).Max) →
      ∃ e, (segmentRangeParser (strconv.Itoa a ++ '-' :: strconv.Itoa b) tr).err = some e) := by
  have hda : '-' ∉ strconv.Itoa a := Itoa_nonneg_not_mem a ha '-' (by decide)
  have hdb : '-' ∉ strconv.Itoa b := Itoa_nonneg_not_mem b hb '-' (by decide)
  have hstar : strconv.Itoa a ++ '-' :: strconv.Itoa b ≠ "*".toList := by
    intro e
    have : '-' ∈ strconv.Itoa a ++ '-' :: strconv.Itoa b := by simp
    rw [e] at this
    revert this
    decide
  obtain ⟨hmin, hmax⟩ := rangeMapAt_bounds tr
  have hL : (59 : Int) < strconv.intLimit := by decide
  have hL' : -strconv.intLimit ≤ (0 : Int) := by decide
  rw [segmentRangeParser_split _ tr _ _ hstar (Split_two _ _ '-' hda hdb), Atoi_Itoa, Atoi_Itoa]
  by_cases hra : -strconv.intLimit ≤ a ∧ a < strconv.intLimit
  · by_cases hrb : -strconv.intLimit ≤ b ∧ b < strconv.intLimit
    · rw [if_pos hra, if_pos hrb]
      by_cases hwa : (rangeMapAt tr).IsWithinBounds a = true
      · by_cases hwb : (rangeMapAt tr).IsWithinBounds b = true
        · have ha' := (IsWithinBounds_iff _ _).mp hwa
          have hb' := (IsWithinBounds_iff _ _).mp hwb
          by_cases hab : b < a
          · simp [hwa, hwb, hab]
          · simp [hwa, hwb, hab]
            omega
        · have hb' : ¬ _ := fun h => hwb ((IsWithinBounds_iff _ _).mpr h)
          simp [hwa, hwb]
          omega
      · have ha' : ¬ _ := fun h => hwa ((IsWithinBounds_iff _ _).mpr h)
        simp [hwa]
        omega
    · rw [if_pos hra, if_neg hrb]
      simp
      omega
  · rw [if_neg hra]
    simp
    omega

/-- What `NewCronTime` makes of the text `a-b` of two non-negative integers. -/
theorem valuesOf_range (tr : TimeRange) (a b : Int) (ha : 0 ≤ a) (hb : 0 ≤ b) :
    valuesOf (NewCronTime (strconv.Itoa a ++ '-' :: strconv.Itoa b) tr)
      = if (rangeMapAt tr).Min ≤ a ∧ a ≤ b ∧ b ≤ (rangeMapAt tr).Max then some (countUp a b)
        else none := by
  have hstar : strconv.Itoa a ++ '-' :: strconv.Itoa b ≠ "*".toList := by
    intro e
    have : '-' ∈ strconv.Itoa a ++ '-' :: strconv.Itoa b := by simp
    rw [e] at this
    revert this
    decide
  have hcomma : ',' ∉ strconv.Itoa a ++ '-' :: strconv.Itoa b := by
    simp [Itoa_not_mem a ',' (by decide) (by decide), Itoa_not_mem b ',' (by decide) (by decide)]
  have hslash : '/' ∉ strconv.Itoa a ++ '-' :: strconv.Itoa b := by
    simp [Itoa_not_mem a '/' (by decide) (by decide), Itoa_not_mem b '/' (by decide) (by decide)]
  have hA : strconv.Atoi (strconv.Itoa a ++ '-' :: strconv.Itoa b) = none := by
    cases h : strconv.Itoa a with
    | nil => exact absurd h (Itoa_ne_nil a)
    | cons c t => exact Atoi_none_of_tail c _ '-' (by simp) (by decide)
  obtain ⟨hm, hok, herr⟩ := segmentRangeParser_text tr a b ha hb
  rw [valuesOf_token _ tr hcomma (ParseSpecial_Itoa tr a _), firstMatch_cronParsers,
    unrestricted_noMatch _ tr hstar, number_noMatch _ tr hA, divisor_noMatch _ tr hslash]
  simp only [noMatch, hm, if_true, Bool.false_eq_true, if_false]
  by_cases hc : (rangeMapAt tr).Min ≤ a ∧ a ≤ b ∧ b ≤ (rangeMapAt tr).Max
  · rw [hok hc, if_pos hc]
    simp [sortSlice_of_sorted _ (countUp_sorted _ _)]
  · obtain ⟨e, he⟩ := herr hc
    rw [if_neg hc, he]

theorem unrestricted_values_bounds (s : GoString) (tr : TimeRange) (v : Int)
    (hv : v ∈ (segmentUnrestrictedRangeParser s tr).values) :
    (rangeMapAt tr).Min ≤ v ∧ v ≤ (rangeMapAt tr).Max := by
  unfold segmentUnrestrictedRangeParser at hv
  split at hv
  · simp [noMatch] at hv
  · exact (mem_countUp _ _ _).mp hv

theorem number_values_bounds (s : GoString) (tr : TimeRange) (v : Int)
    (hv : v ∈ (segmentNumberParser s tr).values) :
    (rangeMapAt tr).Min ≤ v ∧ v ≤ (rangeMapAt tr).Max := by
  unfold segmentNumberParser at hv
  split at hv
  · rename_i val hval
    by_cases hw : (rangeMapAt tr).IsWithinBounds val = true
    · simp only [hw, Bool.not_true, Bool.false_eq_true, if_false, List.mem_singleton] at hv
      rw [hv]
      exact (IsWithinBounds_iff _ _).mp hw
    · simp [hw] at hv
  · simp [noMatch] at hv

theorem range_values_bounds (s : GoString) (tr : TimeRange) (v : Int)
    (hv : v ∈ (segmentRangeParser s tr).values) :
    (rangeMapAt tr).Min ≤ v ∧ v ≤ (rangeMapAt tr).Max := by
  unfold segmentRangeParser at hv
  split at hv
  · exact unrestricted_values_bounds s tr v hv
  · split at hv
    · split at hv
      · simp at hv
      · split at hv
        · simp at hv
        · rename_i left _ _ right _
          by_cases hwl : (rangeMapAt tr).IsWithinBounds left = true
          · by_cases hwr : (rangeMapAt tr).IsWithinBounds right = true
            · have hl := (IsWithinBounds_iff _ _).mp hwl
              have hr := (IsWithinBounds_iff _ _).mp hwr
              by_cases hlt : right < left
              · simp [hwl, hwr, hlt] at hv
              · simp only [hwl, hwr, hlt, Bool.not_true, Bool.or_self, Bool.false_eq_true,
                  if_false] at hv
                have := (mem_countUp _ _ _).mp hv
                omega
            · simp [hwl, hwr] at hv
          · simp [hwl] at hv
    · simp [noMatch] at hv

theorem segmentDivisorParser_split (s : GoString) (tr : TimeRange) (x y : GoString)
    (hsplit : strings.Split s '/' = [x, y]) :
    segmentDivisorParser s tr
      = match divisorBase x tr with
        | .error err => ⟨true, [], some err⟩
        | .ok rangeValues =>
          match strconv.Atoi y with
          | none => ⟨true, [], some "right value in range for segment is invalid".toList⟩
          | some right => ⟨true, divisorFilter rangeValues right, none⟩ := by
  unfold segmentDivisorParser
  rw [hsplit]

theorem divisorBase_star (tr : TimeRange) :
    divisorBase "*".toList tr = .ok (countUp (rangeMapAt tr).Min (rangeMapAt tr).Max) := by
  simp [divisorBase, segmentUnrestrictedRangeParser]

theorem divisorBase_bounds (x : GoString) (tr : TimeRange) (rv : List Int)
    (h : divisorBase x tr = .ok rv) :
    ∀ w ∈ rv, (rangeMapAt tr).Min ≤ w ∧ w ≤ (rangeMapAt tr).Max := by
  intro w hw
  unfold divisorBase at h
  split at h
  · injection h with h
    rw [← h] at hw
    exact unrestricted_values_bounds _ tr w hw
  · split at h
    · split at h
      · cases h
      · injection h with h
        rw [← h] at hw
        exact range_values_bounds _ tr w hw
    · cases h

/-- The divisor parser on the text `*/n`. -/
theorem segmentDivisorParser_star (tr : TimeRange) (n : Int) :
    segmentDivisorParser ('*' :: '/' :: strconv.Itoa n) tr
      = if -strconv.intLimit ≤ n ∧ n < strconv.intLimit then
          ⟨true, divisorFilter (countUp (rangeMapAt tr).Min (rangeMapAt tr).Max) n, none⟩
        else ⟨true, [], some "right value in range for segment is invalid".toList⟩ := by
  have hsplit : strings.Split ('*' :: '/' :: strconv.Itoa n) '/' = ["*".toList, strconv.Itoa n] :=
    Split_two ['*'] _ '/' (by decide) (Itoa_not_mem n '/' (by decide) (by decide))
  rw [segmentDivisorParser_split _ tr _ _ hsplit, Atoi_Itoa, divisorBase_star]
  by_cases hr : -strconv.intLimit ≤ n ∧ n < strconv.intLimit
  · simp [hr]
  · simp [hr]

/-- What `NewCronTime` makes of the text `*/n`. -/
theorem valuesOf_star_div (tr : TimeRange) (n : Int) :
    valuesOf (NewCronTime ('*' :: '/' :: strconv.Itoa n) tr)
      = if -strconv.intLimit ≤ n ∧ n < strconv.intLimit then
          some (divisorFilter (countUp (rangeMapAt tr).Min (rangeMapAt tr).Max) n)
        else none := by
  have hcomma : ',' ∉ '*' :: '/' :: strconv.Itoa n := by
    simp [Itoa_not_mem n ',' (by decide) (by decide)]
  have hp : TimeRange.ParseSpecial tr ('*' :: '/' :: strconv.Itoa n)
      = '*' :: '/' :: strconv.Itoa n := ParseSpecial_low tr _ '*' (by simp) (by decide)
  have hstar : '*' :: '/' :: strconv.Itoa n ≠ "*".toList := by
    intro e
    have h := congrArg List.length e
    simp at h
  have hA : strconv.Atoi ('*' :: '/' :: strconv.Itoa n) = none :=
    Atoi_none_of_head '*' _ (by decide) (by decide) (by decide)
  rw [valuesOf_token _ tr hcomma hp, firstMatch_cronParsers, unrestricted_noMatch _ tr hstar,
    number_noMatch _ tr hA, segmentDivisorParser_star]
  by_cases hr : -strconv.intLimit ≤ n ∧ n < strconv.intLimit
  · simp [hr, noMatch,
      sortSlice_of_sorted _ (divisorFilter_sorted _ n (countUp_sorted _ _))]
  · simp [hr, noMatch]

/-- The divisor parser on the text `a-b/n` with a base range that is valid. -/
theorem segmentDivisorParser_range (tr : TimeRange) (a b n : Int)
    (hab : (rangeMapAt tr).Min ≤ a ∧ a ≤ b ∧ b ≤ (rangeMapAt tr).Max) :
    segmentDivisorParser (strconv.Itoa a ++ '-' :: (strconv.Itoa b ++ '/' :: strconv.Itoa n)) tr
      = if -strconv.intLimit ≤ n ∧ n < strconv.intLimit then
          ⟨true, divisorFilter (countUp a b) n, none⟩
        else ⟨true, [], some "right value in range for segment is invalid".toList⟩ := by
  obtain ⟨hmin, hmax⟩ := rangeMapAt_bounds tr
  have ha : 0 ≤ a := by omega
  have hb : 0 ≤ b := by omega
  have hsplit : strings.Split
      (strconv.Itoa a ++ '-' :: (strconv.Itoa b ++ '/' :: strconv.Itoa n)) '/'
      = [strconv.Itoa a ++ '-' :: strconv.Itoa b, strconv.Itoa n] := by
    have e : strconv.Itoa a ++ '-' :: (strconv.Itoa b ++ '/' :: strconv.Itoa n)
        = (strconv.Itoa a ++ '-' :: strconv.Itoa b) ++ '/' :: strconv.Itoa n := by simp
    rw [e]
    refine Split_two _ _ '/' ?_ (Itoa_not_mem n '/' (by decide) (by decide))
    simp [Itoa_not_mem a '/' (by decide) (by decide), Itoa_not_mem b '/' (by decide) (by decide)]
  have hstar : strconv.Itoa a ++ '-' :: strconv.Itoa b ≠ "*".toList := by
    intro e
    have : '-' ∈ strconv.Itoa a ++ '-' :: strconv.Itoa b := by simp
    rw [e] at this
    revert this
    decide
  obtain ⟨-, hok, -⟩ := segmentRangeParser_text tr a b ha hb
  have hbase : divisorBase (strconv.Itoa a ++ '-' :: strconv.Itoa b) tr = .ok (countUp a b) := by
    unfold divisorBase
    rw [unrestricted_noMatch _ tr hstar, hok hab]
    simp [noMatch]
  rw [segmentDivisorParser_split _ tr _ _ hsplit, hbase, Atoi_Itoa]
  by_cases hr : -strconv.intLimit ≤ n ∧ n < strconv.intLimit
  · simp [hr, noMatch]
  · simp [hr, noMatch]

/-- What `NewCronTime` makes of the text `a-b/n` with a valid base range: the
divisor parser is the one that handles the token. -/
theorem valuesOf_range_div (tr : TimeRange) (a b n : Int)
    (hab : (rangeMapAt tr).Min ≤ a ∧ a ≤ b ∧ b ≤ (rangeMapAt tr).Max) :
    firstMatch cronParsers
        (strconv.Itoa a ++ '-' :: (strconv.Itoa b ++ '/' :: strconv.Itoa n)) tr
      = some (segmentDivisorParser
          (strconv.Itoa a ++ '-' :: (strconv.Itoa b ++ '/' :: strconv.Itoa n)) tr) ∧
    valuesOf (NewCronTime
        (strconv.Itoa a ++ '-' :: (strconv.Itoa b ++ '/' :: strconv.Itoa n)) tr)
      = if -strconv.intLimit ≤ n ∧ n < strconv.intLimit then
          some (divisorFilter (countUp a b) n)
        else none := by
  have hcomma : ',' ∉ strconv.Itoa a ++ '-' :: (strconv.Itoa b ++ '/' :: strconv.Itoa n) := by
    simp [Itoa_not_mem a ',' (by decide) (by decide), Itoa_not_mem b ',' (by decide) (by decide),
      Itoa_not_mem n ',' (by decide) (by decide)]
  have hstar : strconv.Itoa a ++ '-' :: (strconv.Itoa b ++ '/' :: strconv.Itoa n)
      ≠ "*".toList := by
    intro e
    have : '-' ∈ strconv.Itoa a ++ '-' :: (strconv.Itoa b ++ '/' :: strconv.Itoa n) := by simp
    rw [e] at this
    revert this
    decide
  have hA : strconv.Atoi (strconv.Itoa a ++ '-' :: (strconv.Itoa b ++ '/' :: strconv.Itoa n))
      = none := by
    cases h : strconv.Itoa a with
    | nil => exact absurd h (Itoa_ne_nil a)
    | cons c t => exact Atoi_none_of_tail c _ '-' (by simp) (by decide)
  have hfirst : firstMatch cronParsers
        (strconv.Itoa a ++ '-' :: (strconv.Itoa b ++ '/' :: strconv.Itoa n)) tr
      = some (segmentDivisorParser
          (strconv.Itoa a ++ '-' :: (strconv.Itoa b ++ '/' :: strconv.Itoa n)) tr) := by
    rw [firstMatch_cronParsers, unrestricted_noMatch _ tr hstar, number_noMatch _ tr hA,
      segmentDivisorParser_range tr a b n hab]
    by_cases hr : -strconv.intLimit ≤ n ∧ n < strconv.intLimit
    · simp [hr, noMatch]
    · simp [hr, noMatch]
  refine ⟨hfirst, ?_⟩
  rw [valuesOf_token _ tr hcomma (ParseSpecial_Itoa tr a _), hfirst,
    segmentDivisorParser_range tr a b n hab]
  by_cases hr : -strconv.intLimit ≤ n ∧ n < strconv.intLimit
  · simp [hr, sortSlice_of_sorted _ (divisorFilter_sorted _ n (countUp_sorted _ _))]
  · simp [hr]

/-! ## Every parser stays within the bounds -/

theorem divisor_values_bounds (s : GoString) (tr : TimeRange) (v : Int)
    (hv : v ∈ (segmentDivisorParser s tr).values) :
    (rangeMapAt tr).Min ≤ v ∧ v ≤ (rangeMapAt tr).Max := by
  unfold segmentDivisorParser at hv
  split at hv
  · cases hbase : divisorBase _ tr with
    | error e => rw [hbase] at hv; simp at hv
    | ok rv =>
      rw [hbase] at hv
      simp only [] at hv
      split at hv
      · simp at hv
      · exact divisorBase_bounds _ tr rv hbase v ((mem_divisorFilter _ _ _).mp hv).1
  · simp [noMatch] at hv

theorem firstMatch_values_bounds (s : GoString) (tr : TimeRange) (r : ParseResult)
    (h : firstMatch cronParsers s tr = some r) (v : Int) (hv : v ∈ r.values) :
    (rangeMapAt tr).Min ≤ v ∧ v ≤ (rangeMapAt tr).Max := by
  rw [firstMatch_cronParsers] at h
  split at h
  · injection h with h; rw [← h] at hv; exact unrestricted_values_bounds s tr v hv
  · split at h
    · injection h with h; rw [← h] at hv; exact number_values_bounds s tr v hv
    · split at h
      · injection h with h; rw [← h] at hv; exact divisor_values_bounds s tr v hv
      · split at h
        · injection h with h; rw [← h] at hv; exact range_values_bounds s tr v hv
        · cases h

theorem segmentsValues_bounds (tr : TimeRange) : ∀ (segments : List GoString) (vs : List Int),
    segmentsValues cronParsers tr segments = some vs →
    ∀ v ∈ vs, (rangeMapAt tr).Min ≤ v ∧ v ≤ (rangeMapAt tr).Max := by
  intro segments
  induction segments with
  | nil =>
    intro vs h v hv
    simp [segmentsValues] at h
    rw [h] at hv
    simp at hv
  | cons seg later ih =>
    intro vs h v hv
    unfold segmentsValues at h
    cases h1 : segmentValues cronParsers tr seg with
    | none => rw [h1] at h; simp at h
    | some w =>
      cases h2 : segmentsValues cronParsers tr later with
      | none => rw [h1, h2] at h; simp at h
      | some ws =>
        rw [h1, h2] at h
        simp only [Option.some.injEq] at h
        rw [← h] at hv
        rcases List.mem_append.mp hv with hv | hv
        · unfold segmentValues at h1
          cases hf : firstMatch cronParsers (TimeRange.ParseSpecial tr seg) tr with
          | none => rw [hf] at h1; simp at h1
          | some r =>
            rw [hf] at h1
            rcases r with ⟨m, rv, _ | e⟩
            · simp only [Option.some.injEq] at h1
              exact firstMatch_values_bounds _ tr _ hf v (by rw [← h1] at hv; exact hv)
            · simp at h1
        · exact ih ws h2 v hv

theorem mem_sortSlice (l : List Int) (v : Int) : v ∈ sortSlice l ↔ v ∈ l :=
  (List.perm_insertionSort _ l).mem_iff

/-! ## Properties of `NewCronTime` -/

/-- C1. For every one of the five field kinds (the keys `DataForTimeRange`
knows), `NewCronTime("*", kind)` succeeds and its values are exactly the
ascending sequence `min, min+1, ..., max` of the bounds of the kind: the value at
index `k` is `min + k` and there are `max - min + 1` of them, which makes 60, 24,
31, 12 and 8 values for minute, hour, day of month, month and day of week. -/
theorem unrestricted_full_range (tr : TimeRange) (d : TimeRangeData)
    (hd : DataForTimeRange tr = .ok d) :
    ∃ vs, valuesOf (NewCronTime "*".toList tr) = some vs ∧
      vs.length = (d.Max - d.Min + 1).toNat ∧
      (∀ k : Nat, k < vs.length → vs[k]? = some (d.Min + (k : Int))) ∧
      timeRanges.map (fun kind => (valuesOf (NewCronTime "*".toList kind)).map List.length)
        = [some 60, some 24, some 31, some 12, some 8] := by
  obtain ⟨hr, -⟩ := DataForTimeRange_ok tr d hd
  refine ⟨countUp d.Min d.Max, ?_, ?_, ?_, ?_⟩
  · rw [valuesOf_star, hr]
  · rw [countUp_length]; congr 1; omega
  · intro k hk
    exact countUp_getElem? _ _ k hk
  · simp only [timeRanges, List.map, valuesOf_star]
    rfl

theorem unrestricted_full_range_witness :
    DataForTimeRange MinuteRange = .ok ⟨0, 59⟩ ∧
    ∃ vs, valuesOf (NewCronTime "*".toList MinuteRange) = some vs ∧
      vs.length = ((59 : Int) - 0 + 1).toNat ∧
      (∀ k : Nat, k < vs.length → vs[k]? = some ((0 : Int) + (k : Int))) ∧
      timeRanges.map (fun kind => (valuesOf (NewCronTime "*".toList kind)).map List.length)
        = [some 60, some 24, some 31, some 12, some 8] :=
  ⟨rfl, unrestricted_full_range MinuteRange ⟨0, 59⟩ rfl⟩

/-- C2. For every field kind and every integer `n`, `NewCronTime` on the decimal
text of `n` succeeds with the one value `n` when `min ≤ n ≤ max` and returns an
error otherwise; so the texts of `min` and `max` give `[min]` and `[max]`, and
those of `min - 1` and `max + 1` are errors. -/
theorem number_token (tr : TimeRange) (d : TimeRangeData)
    (hd : DataForTimeRange tr = .ok d) (n : Int) :
    ((d.Min ≤ n ∧ n ≤ d.Max) → valuesOf (NewCronTime (strconv.Itoa n) tr) = some [n]) ∧
    (¬ (d.Min ≤ n ∧ n ≤ d.Max) → ∃ err, NewCronTime (strconv.Itoa n) tr = .error err) ∧
    valuesOf (NewCronTime (strconv.Itoa d.Min) tr) = some [d.Min] ∧
    valuesOf (NewCronTime (strconv.Itoa d.Max) tr) = some [d.Max] ∧
    (∃ err, NewCronTime (strconv.Itoa (d.Min - 1)) tr = .error err) ∧
    (∃ err, NewCronTime (strconv.Itoa (d.Max + 1)) tr = .error err) := by
  obtain ⟨hr, -⟩ := DataForTimeRange_ok tr d hd
  have hle := rangeMapAt_min_le_max tr
  rw [hr] at hle
  have key := fun m : Int => valuesOf_Itoa tr m
  simp only [hr] at key
  refine ⟨?_, ?_, ?_, ?_, ?_, ?_⟩
  · intro h; rw [key, if_pos h]
  · intro h; rw [← valuesOf_eq_none, key, if_neg h]
  · rw [key, if_pos ⟨le_refl _, hle⟩]
  · rw [key, if_pos ⟨hle, le_refl _⟩]
  · rw [← valuesOf_eq_none, key, if_neg (by omega)]
  · rw [← valuesOf_eq_none, key, if_neg (by omega)]

theorem number_token_witness :
    DataForTimeRange HourRange = .ok ⟨0, 23⟩ ∧
    valuesOf (NewCronTime (strconv.Itoa 7) HourRange) = some [7] ∧
    ∃ err, NewCronTime (strconv.Itoa 24) HourRange = .error err :=
  ⟨rfl, (number_token HourRange ⟨0, 23⟩ rfl 7).1 (by decide),
    (number_token HourRange ⟨0, 23⟩ rfl 24).2.1 (by decide)⟩

/-- C3. For every field kind and all non-negative integers `a` and `b`,
`NewCronTime` on the text `a-b` succeeds with the ascending inclusive sequence
`a, a+1, ..., b` when `min ≤ a ≤ b ≤ max` (the single value `a` when `a = b`),
and returns an error when `b < a` or when an end lies outside the bounds of the
kind. -/
theorem range_token (tr : TimeRange) (d : TimeRangeData)
    (hd : DataForTimeRange tr = .ok d) (a b : Nat) :
    ((d.Min ≤ (a : Int) ∧ a ≤ b ∧ (b : Int) ≤ d.Max) →
      valuesOf (NewCronTime (strconv.Itoa a ++ "-".toList ++ strconv.Itoa b) tr)
        = some ((List.range' a (b + 1 - a)).map Int.ofNat)) ∧
    ((d.Min ≤ (a : Int) ∧ (a : Int) ≤ d.Max) →
      valuesOf (NewCronTime (strconv.Itoa a ++ "-".toList ++ strconv.Itoa a) tr)
        = some [(a : Int)]) ∧
    ((b < a ∨ ¬ (d.Min ≤ (a : Int) ∧ (a : Int) ≤ d.Max)
        ∨ ¬ (d.Min ≤ (b : Int) ∧ (b : Int) ≤ d.Max)) →
      ∃ err, NewCronTime (strconv.Itoa a ++ "-".toList ++ strconv.Itoa b) tr = .error err) := by
  obtain ⟨hr, -⟩ := DataForTimeRange_ok tr d hd
  have htext : ∀ x y : Nat, strconv.Itoa x ++ "-".toList ++ strconv.Itoa y
      = strconv.Itoa x ++ '-' :: strconv.Itoa y := by
    intro x y; simp
  have key := fun x y : Nat =>
    valuesOf_range tr x y (Int.ofNat_nonneg x) (Int.ofNat_nonneg y)
  simp only [hr] at key
  refine ⟨?_, ?_, ?_⟩
  · intro h
    rw [htext, key, if_pos ⟨h.1, by omega, h.2.2⟩, countUp_nat]
  · intro h
    rw [htext, key, if_pos ⟨h.1, le_refl _, h.2⟩, countUp_nat]
    simp
  · intro h
    rw [← valuesOf_eq_none, htext, key, if_neg (by omega)]

theorem range_token_witness :
    DataForTimeRange DayOfMonthRange = .ok ⟨1, 31⟩ ∧
    valuesOf (NewCronTime (strconv.Itoa (3 : Nat) ++ "-".toList ++ strconv.Itoa (6 : Nat))
      DayOfMonthRange) = some ((List.range' 3 (6 + 1 - 3)).map Int.ofNat) ∧
    valuesOf (NewCronTime (strconv.Itoa (3 : Nat) ++ "-".toList ++ strconv.Itoa (3 : Nat))
      DayOfMonthRange) = some [((3 : Nat) : Int)] ∧
    ∃ err, NewCronTime (strconv.Itoa (6 : Nat) ++ "-".toList ++ strconv.Itoa (3 : Nat))
      DayOfMonthRange = .error err :=
  ⟨rfl, (range_token DayOfMonthRange ⟨1, 31⟩ rfl 3 6).1 (by decide),
    (range_token DayOfMonthRange ⟨1, 31⟩ rfl 3 3).2.1 (by decide),
    (range_token DayOfMonthRange ⟨1, 31⟩ rfl 6 3).2.2 (Or.inl (by decide))⟩

/-- C4, as the code has it. For every field kind and every integer `n` that a
Go `int` holds (`-2^63 ≤ n < 2^63`), `NewCronTime` on the text `*/n` succeeds;
its values are in strictly ascending order and are exactly the integers `v` with
`min ≤ v ≤ max` that `n` divides when `n` is not zero, and there are none when
`n = 0`. -/
theorem star_divisor_token (tr : TimeRange) (d : TimeRangeData)
    (hd : DataForTimeRange tr = .ok d) (n : Int)
    (hn : -(2 : Int) ^ 63 ≤ n ∧ n < (2 : Int) ^ 63) :
    ∃ vs, valuesOf (NewCronTime ("*/".toList ++ strconv.Itoa n) tr) = some vs ∧
      vs.Sorted (fun x y => x < y) ∧
      (∀ v, v ∈ vs ↔ (n ≠ 0 ∧ d.Min ≤ v ∧ v ≤ d.Max ∧ n ∣ v)) ∧
      (n = 0 → vs = []) := by
  obtain ⟨hr, -⟩ := DataForTimeRange_ok tr d hd
  have key := valuesOf_star_div tr n
  rw [hr, if_pos (by simpa [strconv.intLimit] using hn)] at key
  have hmem : ∀ v, v ∈ divisorFilter (countUp d.Min d.Max) n
      ↔ (n ≠ 0 ∧ d.Min ≤ v ∧ v ≤ d.Max ∧ n ∣ v) := by
    intro v
    rw [mem_divisorFilter, mem_countUp]
    tauto
  refine ⟨_, key, divisorFilter_sorted _ n (countUp_sorted _ _), hmem, ?_⟩
  intro h0
  apply List.eq_nil_iff_forall_not_mem.mpr
  intro v hv
  exact ((hmem v).mp hv).1 h0

theorem star_divisor_token_witness :
    DataForTimeRange MinuteRange = .ok ⟨0, 59⟩ ∧
    ∃ vs, valuesOf (NewCronTime ("*/".toList ++ strconv.Itoa 15) MinuteRange) = some vs ∧
      vs.Sorted (fun x y => x < y) ∧
      (∀ v, v ∈ vs ↔ ((15 : Int) ≠ 0 ∧ (0 : Int) ≤ v ∧ v ≤ 59 ∧ (15 : Int) ∣ v)) ∧
      ((15 : Int) = 0 → vs = []) :=
  ⟨rfl, star_divisor_token MinuteRange ⟨0, 59⟩ rfl 15 (by decide)⟩

/-- C4 does not hold for every integer: the step `9223372036854775808` (`2^63`)
does not fit a Go `int`, `strconv.Atoi` rejects it, and `NewCronTime` on
`*/9223372036854775808` returns an error for the minute kind. -/
theorem star_divisor_overflow :
    strconv.Itoa 9223372036854775808 = "9223372036854775808".toList ∧
    NewCronTime ("*/".toList ++ strconv.Itoa 9223372036854775808) MinuteRange
      = .error ("could not parse cron time: error occurred for segment 0: "
          ++ "right value in range for segment is invalid").toList := by
  constructor <;> rfl

/-- C5, as the code has it. For every field kind, all integers `a`, `b` with
`min ≤ a ≤ b ≤ max` and every non-zero integer `n` that a Go `int` holds
(`-2^63 ≤ n < 2^63`), the text `a-b/n` is handled by the divisor parser (the
first parser of the chain that matches it) and `NewCronTime` succeeds with, in
strictly ascending order, exactly the integers `v` of `a..b` that `n` divides;
`0-23/2` for the hour kind gives `0, 2, 4, ..., 22`. -/
theorem range_divisor_token (tr : TimeRange) (d : TimeRangeData)
    (hd : DataForTimeRange tr = .ok d) (a b n : Int)
    (hab : d.Min ≤ a ∧ a ≤ b ∧ b ≤ d.Max) (hn0 : n ≠ 0)
    (hn : -(2 : Int) ^ 63 ≤ n ∧ n < (2 : Int) ^ 63) :
    firstMatch cronParsers
        (strconv.Itoa a ++ "-".toList ++ strconv.Itoa b ++ "/".toList ++ strconv.Itoa n) tr
      = some (segmentDivisorParser
        (strconv.Itoa a ++ "-".toList ++ strconv.Itoa b ++ "/".toList ++ strconv.Itoa n) tr) ∧
    (∃ vs, valuesOf (NewCronTime
        (strconv.Itoa a ++ "-".toList ++ strconv.Itoa b ++ "/".toList ++ strconv.Itoa n) tr)
          = some vs ∧
      vs.Sorted (fun x y => x < y) ∧
      (∀ v, v ∈ vs ↔ (a ≤ v ∧ v ≤ b ∧ n ∣ v))) ∧
    valuesOf (NewCronTime "0-23/2".toList HourRange)
      = some [0, 2, 4, 6, 8, 10, 12, 14, 16, 18, 20, 22] := by
  obtain ⟨hr, -⟩ := DataForTimeRange_ok tr d hd
  have htext : strconv.Itoa a ++ "-".toList ++ strconv.Itoa b ++ "/".toList ++ strconv.Itoa n
      = strconv.Itoa a ++ '-' :: (strconv.Itoa b ++ '/' :: strconv.Itoa n) := by simp
  obtain ⟨hfirst, hvals⟩ := valuesOf_range_div tr a b n (by rw [hr]; exact hab)
  rw [if_pos (by simpa [strconv.intLimit] using hn)] at hvals
  rw [htext]
  refine ⟨hfirst, ⟨_, hvals, divisorFilter_sorted _ n (countUp_sorted _ _), ?_⟩, rfl⟩
  intro v
  rw [mem_divisorFilter, mem_countUp]
  tauto

theorem range_divisor_token_witness :
    DataForTimeRange HourRange = .ok ⟨0, 23⟩ ∧
    firstMatch cronParsers
        (strconv.Itoa 4 ++ "-".toList ++ strconv.Itoa 20 ++ "/".toList ++ strconv.Itoa 3)
        HourRange
      = some (segmentDivisorParser
        (strconv.Itoa 4 ++ "-".toList ++ strconv.Itoa 20 ++ "/".toList ++ strconv.Itoa 3)
        HourRange) ∧
    (∃ vs, valuesOf (NewCronTime
        (strconv.Itoa 4 ++ "-".toList ++ strconv.Itoa 20 ++ "/".toList ++ strconv.Itoa 3)
        HourRange) = some vs ∧
      vs.Sorted (fun x y => x < y) ∧
      (∀ v, v ∈ vs ↔ ((4 : Int) ≤ v ∧ v ≤ 20 ∧ (3 : Int) ∣ v))) ∧
    valuesOf (NewCronTime "0-23/2".toList HourRange)
      = some [0, 2, 4, 6, 8, 10, 12, 14, 16, 18, 20, 22] :=
  ⟨rfl, range_divisor_token HourRange ⟨0, 23⟩ rfl 4 20 3 (by decide) (by decide) (by decide)⟩

/-- C5 does not hold for every non-zero integer: with the step
`9223372036854775808` (`2^63`), which does not fit a Go `int`, `NewCronTime` on
`0-23/9223372036854775808` returns an error for the hour kind. -/
theorem range_divisor_overflow :
    strconv.Itoa 0 ++ "-".toList ++ strconv.Itoa 23 ++ "/".toList
        ++ strconv.Itoa 9223372036854775808
      = "0-23/9223372036854775808".toList ∧
    NewCronTime "0-23/9223372036854775808".toList HourRange
      = .error ("could not parse cron time: error occurred for segment 0: "
          ++ "right value in range for segment is invalid").toList := by
  constructor <;> rfl

/-- C6. For the month kind each of the names `jan`..`dec` gives the values of the
decimal text of 1..12 in that order; for the day-of-week kind each of
`mon`..`sat` gives the values of the decimal text of 1..6, and `sun` gives
exactly the two values 0 and 7. -/
theorem names_resolve :
    (∀ p ∈ [("jan", (1 : Int)), ("feb", 2), ("mar", 3), ("apr", 4), ("may", 5), ("jun", 6),
        ("jul", 7), ("aug", 8), ("sep", 9), ("oct", 10), ("nov", 11), ("dec", 12)],
      valuesOf (NewCronTime (String.toList p.1) MonthRange) = some [p.2] ∧
      valuesOf (NewCronTime (strconv.Itoa p.2) MonthRange) = some [p.2]) ∧
    (∀ p ∈ [("mon", (1 : Int)), ("tue", 2), ("wed", 3), ("thu", 4), ("fri", 5), ("sat", 6)],
      valuesOf (NewCronTime (String.toList p.1) DayOfWeekRange) = some [p.2] ∧
      valuesOf (NewCronTime (strconv.Itoa p.2) DayOfWeekRange) = some [p.2]) ∧
    valuesOf (NewCronTime "sun".toList DayOfWeekRange) = some [0, 7] := by
  refine ⟨?_, ?_, rfl⟩
  · intro p hp
    simp only [List.mem_cons, List.mem_singleton, List.not_mem_nil, or_false] at hp
    rcases hp with h | h | h | h | h | h | h | h | h | h | h | h <;> subst h <;>
      exact ⟨rfl, rfl⟩
  · intro p hp
    simp only [List.mem_cons, List.mem_singleton, List.not_mem_nil, or_false] at hp
    rcases hp with h | h | h | h | h | h <;> subst h <;> exact ⟨rfl, rfl⟩

theorem names_resolve_witness :
    valuesOf (NewCronTime "oct".toList MonthRange) = some [10] ∧
    valuesOf (NewCronTime (strconv.Itoa 10) MonthRange) = some [10] ∧
    valuesOf (NewCronTime "sat".toList DayOfWeekRange) = some [6] ∧
    valuesOf (NewCronTime (strconv.Itoa 6) DayOfWeekRange) = some [6] :=
  ⟨(names_resolve.1 ("oct", 10) (by simp)).1, (names_resolve.1 ("oct", 10) (by simp)).2,
    (names_resolve.2.1 ("sat", 6) (by simp)).1, (names_resolve.2.1 ("sat", 6) (by simp)).2⟩

/-- C7. For every raw field text and every field kind, if `NewCronTime` succeeds
then the values it returns are in ascending (non-decreasing) order. -/
theorem values_ascending (val : GoString) (tr : TimeRange) (ct : cronTime)
    (h : NewCronTime val tr = .ok ct) : ct.Values.Sorted (fun x y => x ≤ y) := by
  have hv := valuesOf_NewCronTime val tr
  rw [valuesOf_eq_some val tr ct h] at hv
  cases hs : segmentsValues cronParsers tr (cronSegments val tr) with
  | none => rw [hs] at hv; simp at hv
  | some vs =>
    rw [hs] at hv
    simp only [Option.map_some', Option.some.injEq] at hv
    rw [hv]
    exact List.sorted_insertionSort _ vs

theorem values_ascending_witness :
    NewCronTime "9,*/20,3-4".toList MinuteRange
      = .ok ⟨["9".toList, "*/20".toList, "3-4".toList], MinuteRange, [0, 3, 4, 9, 20, 40]⟩ ∧
    List.Sorted (fun x y => x ≤ y) [(0 : Int), 3, 4, 9, 20, 40] :=
  ⟨rfl, values_ascending "9,*/20,3-4".toList MinuteRange
    ⟨["9".toList, "*/20".toList, "3-4".toList], MinuteRange, [0, 3, 4, 9, 20, 40]⟩ rfl⟩

/-- C8. For every raw field text and each of the five field kinds, if
`NewCronTime` succeeds then every value `v` it returns satisfies
`min ≤ v ≤ max` for the bounds of the kind, whichever parser produced it and
whether or not a name was translated. -/
theorem values_within_bounds (val : GoString) (tr : TimeRange) (d : TimeRangeData)
    (hd : DataForTimeRange tr = .ok d) (ct : cronTime) (h : NewCronTime val tr = .ok ct) :
    ∀ v ∈ ct.Values, d.Min ≤ v ∧ v ≤ d.Max := by
  obtain ⟨hr, -⟩ := DataForTimeRange_ok tr d hd
  have hv := valuesOf_NewCronTime val tr
  rw [valuesOf_eq_some val tr ct h] at hv
  cases hs : segmentsValues cronParsers tr (cronSegments val tr) with
  | none => rw [hs] at hv; simp at hv
  | some vs =>
    rw [hs] at hv
    simp only [Option.map_some', Option.some.injEq] at hv
    intro v hmem
    rw [hv, mem_sortSlice] at hmem
    have := segmentsValues_bounds tr _ vs hs v hmem
    rw [hr] at this
    exact this

theorem values_within_bounds_witness :
    DataForTimeRange DayOfWeekRange = .ok ⟨0, 7⟩ ∧
    NewCronTime "sun,2-6/2,fri".toList DayOfWeekRange
      = .ok ⟨["0".toList, "7".toList, "2-6/2".toList, "5".toList], DayOfWeekRange,
          [0, 2, 4, 5, 6, 7]⟩ ∧
    ∀ v ∈ [(0 : Int), 2, 4, 5, 6, 7], (0 : Int) ≤ v ∧ v ≤ 7 :=
  ⟨rfl, rfl, values_within_bounds "sun,2-6/2,fri".toList DayOfWeekRange ⟨0, 7⟩ rfl
    ⟨["0".toList, "7".toList, "2-6/2".toList, "5".toList], DayOfWeekRange,
      [0, 2, 4, 5, 6, 7]⟩ rfl⟩

/-- The values of a comma-free token parsed on its own. -/
theorem valuesOf_single (t : GoString) (tr : TimeRange) (hc : ',' ∉ t) :
    valuesOf (NewCronTime t tr)
      = (segmentsValues cronParsers tr
          (strings.Split (TimeRange.ParseSpecial tr t) ',')).map sortSlice := by
  rw [valuesOf_NewCronTime]
  unfold cronSegments
  rw [Split_of_not_mem t ',' hc, List.flatMap_singleton]

theorem segmentsValues_flatMap (tr : TimeRange) :
    ∀ (ts : List GoString) (vs : List Int), (∀ t ∈ ts, ',' ∉ t) →
      segmentsValues cronParsers tr
        (ts.flatMap (fun t => strings.Split (TimeRange.ParseSpecial tr t) ',')) = some vs →
      ∃ per : List (List Int),
        List.Forall₂ (fun t w => valuesOf (NewCronTime t tr) = some w) ts per ∧
        vs.Perm per.flatten := by
  intro ts
  induction ts with
  | nil =>
    intro vs _ h
    simp [segmentsValues] at h
    exact ⟨[], List.Forall₂.nil, by rw [h]; simp⟩
  | cons t rest ih =>
    intro vs hts h
    rw [List.flatMap_cons, segmentsValues_append] at h
    cases h1 : segmentsValues cronParsers tr
        (strings.Split (TimeRange.ParseSpecial tr t) ',') with
    | none => rw [h1] at h; simp at h
    | some v1 =>
      cases h2 : segmentsValues cronParsers tr
          (rest.flatMap (fun t => strings.Split (TimeRange.ParseSpecial tr t) ',')) with
      | none => rw [h1, h2] at h; simp at h
      | some v2 =>
        rw [h1, h2] at h
        simp only [Option.some.injEq] at h
        obtain ⟨per, hper, hperm⟩ := ih v2 (fun x hx => hts x (List.mem_cons_of_mem _ hx)) h2
        refine ⟨sortSlice v1 :: per, List.Forall₂.cons ?_ hper, ?_⟩
        · rw [valuesOf_single t tr (hts t (by simp)), h1]
          rfl
        · rw [← h, List.flatten_cons]
          exact List.Perm.append (List.perm_insertionSort _ v1).symm hperm

/-- C9. For every field kind and every comma-separated list of tokens
`t1,...,tk` on which `NewCronTime` succeeds, every token parses on its own and
the values returned for the list are a permutation of the concatenation of the
values of the tokens: nothing is dropped and no duplicate is removed, so their
number is the sum of the numbers of values of the tokens. `1,1` gives `[1, 1]`
for each kind, and `sun,3` gives `[0, 3, 7]` for the day of week. -/
theorem list_values_perm (tr : TimeRange) (ts : List GoString) (hne : ts ≠ [])
    (hts : ∀ t ∈ ts, ',' ∉ t) (ct : cronTime)
    (h : NewCronTime (strings.Join ts ",".toList) tr = .ok ct) :
    (∃ per : List (List Int),
      List.Forall₂ (fun t w => valuesOf (NewCronTime t tr) = some w) ts per ∧
      ct.Values.Perm per.flatten ∧
      ct.Values.length = (per.map List.length).sum) ∧
    (∀ kind ∈ timeRanges, valuesOf (NewCronTime "1,1".toList kind) = some [1, 1]) ∧
    valuesOf (NewCronTime "sun,3".toList DayOfWeekRange) = some [0, 3, 7] := by
  refine ⟨?_, by decide, rfl⟩
  have hv := valuesOf_NewCronTime (strings.Join ts ",".toList) tr
  rw [valuesOf_eq_some _ tr ct h] at hv
  have hseg : cronSegments (strings.Join ts ",".toList) tr
      = ts.flatMap (fun t => strings.Split (TimeRange.ParseSpecial tr t) ',') := by
    unfold cronSegments
    rw [show ",".toList = [','] from rfl, Split_Join ts ',' hne hts]
  rw [hseg] at hv
  cases hs : segmentsValues cronParsers tr
      (ts.flatMap (fun t => strings.Split (TimeRange.ParseSpecial tr t) ',')) with
  | none => rw [hs] at hv; simp at hv
  | some vs =>
    rw [hs] at hv
    simp only [Option.map_some', Option.some.injEq] at hv
    obtain ⟨per, hper, hperm⟩ := segmentsValues_flatMap tr ts vs hts hs
    have hp : ct.Values.Perm per.flatten := by
      rw [hv]
      exact (List.perm_insertionSort _ vs).trans hperm
    exact ⟨per, hper, hp, by rw [hp.length_eq, List.length_flatten]⟩

theorem list_values_perm_witness :
    NewCronTime (strings.Join ["5-6".toList, "jan".toList, "*/6".toList, "6".toList] ",".toList)
        MonthRange
      = .ok ⟨["5-6".toList, "1".toList, "*/6".toList, "6".toList], MonthRange,
          [1, 5, 6, 6, 6, 12]⟩ ∧
    ((∃ per : List (List Int),
      List.Forall₂ (fun t w => valuesOf (NewCronTime t MonthRange) = some w)
        ["5-6".toList, "jan".toList, "*/6".toList, "6".toList] per ∧
      List.Perm [(1 : Int), 5, 6, 6, 6, 12] per.flatten ∧
      [(1 : Int), 5, 6, 6, 6, 12].length = (per.map List.length).sum) ∧
    (∀ kind ∈ timeRanges, valuesOf (NewCronTime "1,1".toList kind) = some [1, 1]) ∧
    valuesOf (NewCronTime "sun,3".toList DayOfWeekRange) = some [0, 3, 7]) :=
  ⟨rfl, list_values_perm MonthRange ["5-6".toList, "jan".toList, "*/6".toList, "6".toList]
    (by simp) (by decide)
    ⟨["5-6".toList, "1".toList, "*/6".toList, "6".toList], MonthRange, [1, 5, 6, 6, 6, 12]⟩ rfl⟩

/-! ## Properties of `NewCronExpression` -/

theorem NewCronExpression_six (expr t0 t1 t2 t3 t4 t5 : GoString)
    (hs : strings.Split expr ' ' = [t0, t1, t2, t3, t4, t5]) :
    NewCronExpression expr
      = match NewCronTime t0 MinuteRange with
        | .error err => .error ("minute value could not be parsed: ".toList ++ err)
        | .ok minute =>
        match NewCronTime t1 HourRange with
        | .error err => .error ("hour value could not be parsed: ".toList ++ err)
        | .ok hour =>
        match NewCronTime t2 DayOfMonthRange with
        | .error err => .error ("day of month value could not be parsed: ".toList ++ err)
        | .ok dayOfMonth =>
        match NewCronTime t3 MonthRange with
        | .error err => .error ("month value could not be parsed: ".toList ++ err)
        | .ok month =>
        match NewCronTime t4 DayOfWeekRange with
        | .error err => .error ("day of week value could not be parsed: ".toList ++ err)
        | .ok dayOfWeek => .ok ⟨minute, hour, dayOfMonth, month, dayOfWeek, t5⟩ := by
  unfold NewCronExpression
  simp only [hs]
  rfl

theorem NewCronExpression_not_six (expr : GoString)
    (hl : (strings.Split expr ' ').length ≠ 6) :
    NewCronExpression expr
      = .error ("expected ".toList ++ strconv.Itoa Arguments ++ " arguments, recieved ".toList
          ++ strconv.Itoa (strings.Split expr ' ').length) := by
  unfold NewCronExpression
  simp only [Arguments]
  rw [if_pos hl]

theorem length_six {α : Type} (l : List α) (h : l.length = 6) :
    ∃ a b c d e f, l = [a, b, c, d, e, f] := by
  match l, h with
  | [a, b, c, d, e, f], _ => exact ⟨a, b, c, d, e, f, rfl⟩

/-- C10. For every text, `NewCronExpression(text)` succeeds if and only if
splitting the text at single spaces gives exactly six tokens and `NewCronTime`
succeeds on the first five under the kinds minute, hour, day of month, month and
day of week in that order; any other number of tokens is an error, as for the
empty text and for a command that contains a space. -/
theorem NewCronExpression_ok_iff (expr : GoString) :
    ((∃ ce, NewCronExpression expr = .ok ce) ↔
      ∃ t0 t1 t2 t3 t4 t5, strings.Split expr ' ' = [t0, t1, t2, t3, t4, t5] ∧
        (∃ c, NewCronTime t0 MinuteRange = .ok c) ∧
        (∃ c, NewCronTime t1 HourRange = .ok c) ∧
        (∃ c, NewCronTime t2 DayOfMonthRange = .ok c) ∧
        (∃ c, NewCronTime t3 MonthRange = .ok c) ∧
        (∃ c, NewCronTime t4 DayOfWeekRange = .ok c)) ∧
    ((strings.Split expr ' ').length ≠ 6 → ∃ err, NewCronExpression expr = .error err) ∧
    (∃ err, NewCronExpression [] = .error err) ∧
    (∃ err, NewCronExpression "* * * * * echo hello".toList = .error err) := by
  refine ⟨⟨?_, ?_⟩, ?_, ⟨_, rfl⟩, ⟨_, rfl⟩⟩
  · rintro ⟨ce, hce⟩
    by_cases hl : (strings.Split expr ' ').length = 6
    · obtain ⟨t0, t1, t2, t3, t4, t5, hs⟩ := length_six _ hl
      refine ⟨t0, t1, t2, t3, t4, t5, hs, ?_⟩
      rw [NewCronExpression_six expr _ _ _ _ _ _ hs] at hce
      cases h0 : NewCronTime t0 MinuteRange with
      | error e => rw [h0] at hce; cases hce
      | ok c0 =>
        cases h1 : NewCronTime t1 HourRange with
        | error e => rw [h0, h1] at hce; cases hce
        | ok c1 =>
          cases h2 : NewCronTime t2 DayOfMonthRange with
          | error e => rw [h0, h1, h2] at hce; cases hce
          | ok c2 =>
            cases h3 : NewCronTime t3 MonthRange with
            | error e => rw [h0, h1, h2, h3] at hce; cases hce
            | ok c3 =>
              cases h4 : NewCronTime t4 DayOfWeekRange with
              | error e => rw [h0, h1, h2, h3, h4] at hce; cases hce
              | ok c4 => exact ⟨⟨c0, rfl⟩, ⟨c1, rfl⟩, ⟨c2, rfl⟩, ⟨c3, rfl⟩, ⟨c4, rfl⟩⟩
    · rw [NewCronExpression_not_six expr hl] at hce
      cases hce
  · rintro ⟨t0, t1, t2, t3, t4, t5, hs, ⟨c0, h0⟩, ⟨c1, h1⟩, ⟨c2, h2⟩, ⟨c3, h3⟩, ⟨c4, h4⟩⟩
    rw [NewCronExpression_six expr _ _ _ _ _ _ hs, h0, h1, h2, h3, h4]
    exact ⟨_, rfl⟩
  · intro hl
    exact ⟨_, NewCronExpression_not_six expr hl⟩

theorem NewCronExpression_ok_iff_witness :
    (strings.Split "*/15 0 1,15 * 1-5 /usr/bin/find /tmp".toList ' ').length ≠ 6 ∧
    ∃ err, NewCronExpression "*/15 0 1,15 * 1-5 /usr/bin/find /tmp".toList = .error err :=
  ⟨by decide,
    (NewCronExpression_ok_iff "*/15 0 1,15 * 1-5 /usr/bin/find /tmp".toList).2.1 (by decide)⟩

/-- C11. Whenever `NewCronExpression(text)` succeeds, the text has six
space-separated tokens, the fields `Minute`, `Hour`, `DayOfMonth`, `Month` and
`DayOfWeek` are exactly what `NewCronTime` returns for the first, second, third,
fourth and fifth token under the matching kind, and `Command` is the sixth token
unchanged. -/
theorem expression_fields (expr : GoString) (ce : CronExpression)
    (h : NewCronExpression expr = .ok ce) :
    ∃ t0 t1 t2 t3 t4 t5, strings.Split expr ' ' = [t0, t1, t2, t3, t4, t5] ∧
      NewCronTime t0 MinuteRange = .ok ce.Minute ∧
      NewCronTime t1 HourRange = .ok ce.Hour ∧
      NewCronTime t2 DayOfMonthRange = .ok ce.DayOfMonth ∧
      NewCronTime t3 MonthRange = .ok ce.Month ∧
      NewCronTime t4 DayOfWeekRange = .ok ce.DayOfWeek ∧
      ce.Command = t5 := by
  by_cases hl : (strings.Split expr ' ').length = 6
  · obtain ⟨t0, t1, t2, t3, t4, t5, hs⟩ := length_six _ hl
    refine ⟨t0, t1, t2, t3, t4, t5, hs, ?_⟩
    rw [NewCronExpression_six expr _ _ _ _ _ _ hs] at h
    cases h0 : NewCronTime t0 MinuteRange with
    | error e => rw [h0] at h; cases h
    | ok c0 =>
      cases h1 : NewCronTime t1 HourRange with
      | error e => rw [h0, h1] at h; cases h
      | ok c1 =>
        cases h2 : NewCronTime t2 DayOfMonthRange with
        | error e => rw [h0, h1, h2] at h; cases h
        | ok c2 =>
          cases h3 : NewCronTime t3 MonthRange with
          | error e => rw [h0, h1, h2, h3] at h; cases h
          | ok c3 =>
            cases h4 : NewCronTime t4 DayOfWeekRange with
            | error e => rw [h0, h1, h2, h3, h4] at h; cases h
            | ok c4 =>
              rw [h0, h1, h2, h3, h4] at h
              injection h with h
              subst h
              exact ⟨rfl, rfl, rfl, rfl, rfl, rfl⟩
  · rw [NewCronExpression_not_six expr hl] at h
    cases h

theorem expression_fields_witness :
    NewCronExpression "*/15 0 1,15 * 1-5 /usr/bin/find".toList
      = .ok ⟨⟨["*/15".toList], MinuteRange, [0, 15, 30, 45]⟩,
          ⟨["0".toList], HourRange, [0]⟩,
          ⟨["1".toList, "15".toList], DayOfMonthRange, [1, 15]⟩,
          ⟨["*".toList], MonthRange, [1, 2, 3, 4, 5, 6, 7, 8, 9, 10, 11, 12]⟩,
          ⟨["1-5".toList], DayOfWeekRange, [1, 2, 3, 4, 5]⟩,
          "/usr/bin/find".toList⟩ ∧
    ∃ t0 t1 t2 t3 t4 t5,
      strings.Split "*/15 0 1,15 * 1-5 /usr/bin/find".toList ' ' = [t0, t1, t2, t3, t4, t5] ∧
      NewCronTime t0 MinuteRange = .ok ⟨["*/15".toList], MinuteRange, [0, 15, 30, 45]⟩ ∧
      NewCronTime t1 HourRange = .ok ⟨["0".toList], HourRange, [0]⟩ ∧
      NewCronTime t2 DayOfMonthRange
        = .ok ⟨["1".toList, "15".toList], DayOfMonthRange, [1, 15]⟩ ∧
      NewCronTime t3 MonthRange
        = .ok ⟨["*".toList], MonthRange, [1, 2, 3, 4, 5, 6, 7, 8, 9, 10, 11, 12]⟩ ∧
      NewCronTime t4 DayOfWeekRange = .ok ⟨["1-5".toList], DayOfWeekRange, [1, 2, 3, 4, 5]⟩ ∧
      "/usr/bin/find".toList = t5 :=
  ⟨rfl, expression_fields "*/15 0 1,15 * 1-5 /usr/bin/find".toList _ rfl⟩

/-! ## The bounds table and the special tokens -/

/-- C13. `DataForTimeRange` returns without error the inclusive bounds (0, 59)
for minute, (0, 23) for hour, (1, 31) for day of month, (1, 12) for month and
(0, 7) for day of week, and returns an error for every kind that is not one of
these five. -/
theorem DataForTimeRange_table :
    DataForTimeRange "minute".toList = .ok ⟨0, 59⟩ ∧
    DataForTimeRange "hour".toList = .ok ⟨0, 23⟩ ∧
    DataForTimeRange "day of month".toList = .ok ⟨1, 31⟩ ∧
    DataForTimeRange "month".toList = .ok ⟨1, 12⟩ ∧
    DataForTimeRange "day of week".toList = .ok ⟨0, 7⟩ ∧
    ∀ tr : TimeRange,
      tr ∉ ["minute".toList, "hour".toList, "day of month".toList, "month".toList,
        "day of week".toList] →
      ∃ err, DataForTimeRange tr = .error err := by
  refine ⟨rfl, rfl, rfl, rfl, rfl, ?_⟩
  intro tr htr
  have hnone : rangeMap.lookup tr = none := by
    rw [List.lookup_eq_none_iff]
    intro p hp
    have hall : ∀ q ∈ rangeMap, q.1 ∈ ["minute".toList, "hour".toList, "day of month".toList,
        "month".toList, "day of week".toList] := by decide
    have hne : tr ≠ p.1 := by
      rintro rfl
      exact htr (hall p hp)
    simpa using hne
  unfold DataForTimeRange
  rw [hnone]
  exact ⟨_, rfl⟩

theorem DataForTimeRange_table_witness :
    "second".toList ∉ ["minute".toList, "hour".toList, "day of month".toList, "month".toList,
        "day of week".toList] ∧
    ∃ err, DataForTimeRange "second".toList = .error err :=
  ⟨by decide, DataForTimeRange_table.2.2.2.2.2 "second".toList (by decide)⟩

theorem months_lookup_none (seg : GoString)
    (h : seg ∉ ["jan", "feb", "mar", "apr", "may", "jun", "jul", "aug", "sep", "oct", "nov",
      "dec"].map String.toList) : months.lookup seg = none := by
  rw [List.lookup_eq_none_iff]
  intro p hp
  have hall : ∀ q ∈ months, q.1 ∈ ["jan", "feb", "mar", "apr", "may", "jun", "jul", "aug", "sep",
      "oct", "nov", "dec"].map String.toList := by decide
  have hne : seg ≠ p.1 := by
    rintro rfl
    exact h (hall p hp)
  simpa using hne

theorem days_lookup_none (seg : GoString)
    (h : seg ∉ ["mon", "tue", "wed", "thu", "fri", "sat", "sun"].map String.toList) :
    days.lookup seg = none := by
  rw [List.lookup_eq_none_iff]
  intro p hp
  have hall : ∀ q ∈ days, q.1 ∈ ["mon", "tue", "wed", "thu", "fri", "sat", "sun"].map
      String.toList := by decide
  have hne : seg ≠ p.1 := by
    rintro rfl
    exact h (hall p hp)
  simpa using hne

/-- C14. `ParseSpecial` gives the decimal text `1`..`12` for the month kind on
`jan`..`dec`, the decimal text `1`..`6` for the day-of-week kind on `mon`..`sat`
and the text `0,7` for the day-of-week kind on `sun`; in every other case the
token comes back unchanged: for every token under a kind that is neither month
nor day of week (minute, hour and day of month among them) and for every token
that is not in the name table of the kind, so that a weekday name under the
month kind and a month name under the day-of-week kind pass through. -/
theorem ParseSpecial_table :
    (∀ p ∈ [("jan", "1"), ("feb", "2"), ("mar", "3"), ("apr", "4"), ("may", "5"), ("jun", "6"),
        ("jul", "7"), ("aug", "8"), ("sep", "9"), ("oct", "10"), ("nov", "11"), ("dec", "12")],
      TimeRange.ParseSpecial MonthRange (String.toList p.1) = String.toList p.2) ∧
    (∀ p ∈ [("mon", "1"), ("tue", "2"), ("wed", "3"), ("thu", "4"), ("fri", "5"), ("sat", "6")],
      TimeRange.ParseSpecial DayOfWeekRange (String.toList p.1) = String.toList p.2) ∧
    TimeRange.ParseSpecial DayOfWeekRange "sun".toList = "0,7".toList ∧
    (∀ (tr : TimeRange) (seg : GoString), tr ≠ MonthRange → tr ≠ DayOfWeekRange →
      TimeRange.ParseSpecial tr seg = seg) ∧
    (∀ seg : GoString, TimeRange.ParseSpecial MinuteRange seg = seg ∧
      TimeRange.ParseSpecial HourRange seg = seg ∧
      TimeRange.ParseSpecial DayOfMonthRange seg = seg) ∧
    (∀ seg : GoString,
      seg ∉ ["jan", "feb", "mar", "apr", "may", "jun", "jul", "aug", "sep", "oct", "nov",
        "dec"].map String.toList →
      TimeRange.ParseSpecial MonthRange seg = seg) ∧
    (∀ seg : GoString,
      seg ∉ ["mon", "tue", "wed", "thu", "fri", "sat", "sun"].map String.toList →
      TimeRange.ParseSpecial DayOfWeekRange seg = seg) ∧
    (∀ seg ∈ ["mon", "tue", "wed", "thu", "fri", "sat", "sun"].map String.toList,
      TimeRange.ParseSpecial MonthRange seg = seg) ∧
    (∀ seg ∈ ["jan", "feb", "mar", "apr", "may", "jun", "jul", "aug", "sep", "oct", "nov",
        "dec"].map String.toList,
      TimeRange.ParseSpecial DayOfWeekRange seg = seg) := by
  have hother : ∀ (tr : TimeRange) (seg : GoString), tr ≠ MonthRange → tr ≠ DayOfWeekRange →
      TimeRange.ParseSpecial tr seg = seg := by
    intro tr seg h1 h2
    unfold TimeRange.ParseSpecial
    rw [if_neg h1, if_neg h2]
  have hmonth : ∀ seg : GoString,
      seg ∉ ["jan", "feb", "mar", "apr", "may", "jun", "jul", "aug", "sep", "oct", "nov",
        "dec"].map String.toList →
      TimeRange.ParseSpecial MonthRange seg = seg := by
    intro seg h
    unfold TimeRange.ParseSpecial
    rw [if_pos rfl, months_lookup_none seg h]
  have hday : ∀ seg : GoString,
      seg ∉ ["mon", "tue", "wed", "thu", "fri", "sat", "sun"].map String.toList →
      TimeRange.ParseSpecial DayOfWeekRange seg = seg := by
    intro seg h
    unfold TimeRange.ParseSpecial
    rw [if_neg (by decide), if_pos rfl, days_lookup_none seg h]
  refine ⟨by decide, by decide, rfl, hother, ?_, hmonth, hday, by decide, by decide⟩
  intro seg
  exact ⟨hother _ seg (by decide) (by decide), hother _ seg (by decide) (by decide),
    hother _ seg (by decide) (by decide)⟩

theorem ParseSpecial_table_witness :
    TimeRange.ParseSpecial MonthRange "nov".toList = "11".toList ∧
    TimeRange.ParseSpecial DayOfWeekRange "thu".toList = "4".toList ∧
    TimeRange.ParseSpecial "second".toList "jan".toList = "jan".toList ∧
    TimeRange.ParseSpecial MonthRange "13".toList = "13".toList ∧
    TimeRange.ParseSpecial DayOfWeekRange "7".toList = "7".toList ∧
    TimeRange.ParseSpecial MonthRange "fri".toList = "fri".toList ∧
    TimeRange.ParseSpecial DayOfWeekRange "may".toList = "may".toList :=
  ⟨ParseSpecial_table.1 ("nov", "11") (by simp),
    ParseSpecial_table.2.1 ("thu", "4") (by simp),
    ParseSpecial_table.2.2.2.1 "second".toList "jan".toList (by decide) (by decide),
    ParseSpecial_table.2.2.2.2.2.1 "13".toList (by decide),
    ParseSpecial_table.2.2.2.2.2.2.1 "7".toList (by decide),
    ParseSpecial_table.2.2.2.2.2.2.2.1 "fri".toList (by decide),
    ParseSpecial_table.2.2.2.2.2.2.2.2 "may".toList (by decide)⟩

/-! ## Errors of `NewCronExpression` -/

/-- C16. For every text with exactly six space-separated tokens on which
`NewCronExpression` fails, the error names the first field, in the order minute,
hour, day of month, month, day of week, whose token `NewCronTime` rejects: the
fields before it are accepted, and the message is the name of that field
followed by ` value could not be parsed`, then `: ` and the error of
`NewCronTime` for the token; the fields after it play no part. -/
theorem expression_error_first_field (expr t0 t1 t2 t3 t4 t5 err : GoString)
    (hs : strings.Split expr ' ' = [t0, t1, t2, t3, t4, t5])
    (h : NewCronExpression expr = .error err) :
    ∃ (before : List (TimeRange × GoString)) (field : TimeRange × GoString)
      (after : List (TimeRange × GoString)) (e : GoString),
      [("minute".toList, t0), ("hour".toList, t1), ("day of month".toList, t2),
        ("month".toList, t3), ("day of week".toList, t4)] = before ++ field :: after ∧
      (∀ g ∈ before, ∃ c, NewCronTime g.2 g.1 = .ok c) ∧
      NewCronTime field.2 field.1 = .error e ∧
      err = field.1 ++ " value could not be parsed".toList ++ ": ".toList ++ e := by
  rw [NewCronExpression_six expr _ _ _ _ _ _ hs] at h
  cases h0 : NewCronTime t0 MinuteRange with
  | error e =>
    rw [h0] at h
    injection h with h
    exact ⟨[], ("minute".toList, t0), _, e, rfl, by simp, h0, by rw [← h]; rfl⟩
  | ok c0 =>
    cases h1 : NewCronTime t1 HourRange with
    | error e =>
      rw [h0, h1] at h
      injection h with h
      refine ⟨[("minute".toList, t0)], ("hour".toList, t1), _, e, rfl, ?_, h1, by rw [← h]; rfl⟩
      intro g hg
      simp only [List.mem_singleton] at hg
      subst hg
      exact ⟨c0, h0⟩
    | ok c1 =>
      cases h2 : NewCronTime t2 DayOfMonthRange with
      | error e =>
        rw [h0, h1, h2] at h
        injection h with h
        refine ⟨[("minute".toList, t0), ("hour".toList, t1)], ("day of month".toList, t2), _, e,
          rfl, ?_, h2, by rw [← h]; rfl⟩
        intro g hg
        simp only [List.mem_cons, List.mem_singleton, List.not_mem_nil, or_false] at hg
        rcases hg with hg | hg <;> subst hg
        · exact ⟨c0, h0⟩
        · exact ⟨c1, h1⟩
      | ok c2 =>
        cases h3 : NewCronTime t3 MonthRange with
        | error e =>
          rw [h0, h1, h2, h3] at h
          injection h with h
          refine ⟨[("minute".toList, t0), ("hour".toList, t1), ("day of month".toList, t2)],
            ("month".toList, t3), _, e, rfl, ?_, h3, by rw [← h]; rfl⟩
          intro g hg
          simp only [List.mem_cons, List.mem_singleton, List.not_mem_nil, or_false] at hg
          rcases hg with hg | hg | hg <;> subst hg
          · exact ⟨c0, h0⟩
          · exact ⟨c1, h1⟩
          · exact ⟨c2, h2⟩
        | ok c3 =>
          cases h4 : NewCronTime t4 DayOfWeekRange with
          | error e =>
            rw [h0, h1, h2, h3, h4] at h
            injection h with h
            refine ⟨[("minute".toList, t0), ("hour".toList, t1), ("day of month".toList, t2),
              ("month".toList, t3)], ("day of week".toList, t4), [], e, rfl, ?_, h4,
              by rw [← h]; rfl⟩
            intro g hg
            simp only [List.mem_cons, List.mem_singleton, List.not_mem_nil, or_false] at hg
            rcases hg with hg | hg | hg | hg <;> subst hg
            · exact ⟨c0, h0⟩
            · exact ⟨c1, h1⟩
            · exact ⟨c2, h2⟩
            · exact ⟨c3, h3⟩
          | ok c4 =>
            rw [h0, h1, h2, h3, h4] at h
            cases h

theorem expression_error_first_field_witness :
    strings.Split "5 24 0 13 9 ls".toList ' '
      = ["5".toList, "24".toList, "0".toList, "13".toList, "9".toList, "ls".toList] ∧
    NewCronExpression "5 24 0 13 9 ls".toList
      = .error ("hour value could not be parsed: could not parse cron time: "
          ++ "error occurred for segment 0: value for segment out of bounds").toList ∧
    ∃ (before : List (TimeRange × GoString)) (field : TimeRange × GoString)
      (after : List (TimeRange × GoString)) (e : GoString),
      [("minute".toList, "5".toList), ("hour".toList, "24".toList),
        ("day of month".toList, "0".toList), ("month".toList, "13".toList),
        ("day of week".toList, "9".toList)] = before ++ field :: after ∧
      (∀ g ∈ before, ∃ c, NewCronTime g.2 g.1 = .ok c) ∧
      NewCronTime field.2 field.1 = .error e ∧
      ("hour value could not be parsed: could not parse cron time: "
          ++ "error occurred for segment 0: value for segment out of bounds").toList
        = field.1 ++ " value could not be parsed".toList ++ ": ".toList ++ e :=
  ⟨rfl, rfl, expression_error_first_field "5 24 0 13 9 ls".toList _ _ _ _ _ _ _ rfl rfl⟩

/-! ## Lists of tokens: order, names inside ranges, empty tokens -/

theorem cronSegments_append_sep (s t : GoString) (tr : TimeRange) :
    cronSegments (s ++ ',' :: t) tr = cronSegments s tr ++ cronSegments t tr := by
  unfold cronSegments
  rw [Split_append_sep, List.flatMap_append]

theorem sortSlice_perm (l₁ l₂ : List Int) (h : l₁.Perm l₂) : sortSlice l₁ = sortSlice l₂ := by
  unfold sortSlice
  exact List.eq_of_perm_of_sorted
    (((List.perm_insertionSort _ l₁).trans h).trans (List.perm_insertionSort _ l₂).symm)
    (List.sorted_insertionSort _ l₁) (List.sorted_insertionSort _ l₂)

theorem valuesOf_comm (s t : GoString) (tr : TimeRange) :
    valuesOf (NewCronTime (s ++ ',' :: t) tr) = valuesOf (NewCronTime (t ++ ',' :: s) tr) := by
  rw [valuesOf_NewCronTime, valuesOf_NewCronTime, cronSegments_append_sep,
    cronSegments_append_sep, segmentsValues_append, segmentsValues_append]
  cases segmentsValues cronParsers tr (cronSegments s tr) with
  | none => cases segmentsValues cronParsers tr (cronSegments t tr) <;> rfl
  | some v =>
    cases segmentsValues cronParsers tr (cronSegments t tr) with
    | none => rfl
    | some w =>
      simp only [Option.map_some']
      rw [sortSlice_perm (v ++ w) (w ++ v) List.perm_append_comm]

/-- C18. The order of comma-separated parts does not affect the result: for every
field kind and all texts `s` and `t`, `NewCronTime` on `s,t` and on `t,s` either
both fail or both succeed with identical value sequences. -/
theorem comma_parts_commute (s t : GoString) (tr : TimeRange) :
    ((∃ e₁, NewCronTime (s ++ ",".toList ++ t) tr = .error e₁) ∧
      (∃ e₂, NewCronTime (t ++ ",".toList ++ s) tr = .error e₂)) ∨
    (∃ c₁ c₂, NewCronTime (s ++ ",".toList ++ t) tr = .ok c₁ ∧
      NewCronTime (t ++ ",".toList ++ s) tr = .ok c₂ ∧ c₁.Values = c₂.Values) := by
  have e1 : s ++ ",".toList ++ t = s ++ ',' :: t := by simp
  have e2 : t ++ ",".toList ++ s = t ++ ',' :: s := by simp
  rw [e1, e2]
  have h := valuesOf_comm s t tr
  cases h1 : NewCronTime (s ++ ',' :: t) tr with
  | error a =>
    cases h2 : NewCronTime (t ++ ',' :: s) tr with
    | error b => exact Or.inl ⟨⟨a, rfl⟩, ⟨b, rfl⟩⟩
    | ok c => rw [h1, h2] at h; simp [valuesOf] at h
  | ok c =>
    cases h2 : NewCronTime (t ++ ',' :: s) tr with
    | error b => rw [h1, h2] at h; simp [valuesOf] at h
    | ok c' =>
      rw [h1, h2] at h
      simp only [valuesOf, Option.some.injEq] at h
      exact Or.inr ⟨c, c', rfl, rfl, h⟩

/-- A range whose left side is not a number is rejected: the range parser
matches the token and reports the left side. -/
theorem valuesOf_range_bad_left (tr : TimeRange) (c : Char) (l r : GoString)
    (hcomma : ',' ∉ c :: l ++ '-' :: r) (hslash : '/' ∉ c :: l ++ '-' :: r)
    (hl : '-' ∉ c :: l) (hr : '-' ∉ r) (hA : strconv.Atoi (c :: l) = none) :
    valuesOf (NewCronTime (c :: l ++ '-' :: r) tr) = none := by
  have hstar : c :: l ++ '-' :: r ≠ "*".toList := by
    intro e
    have : '-' ∈ c :: l ++ '-' :: r := by simp
    rw [e] at this
    revert this
    decide
  have hp : TimeRange.ParseSpecial tr (c :: l ++ '-' :: r) = c :: l ++ '-' :: r :=
    ParseSpecial_low tr _ '-' (by simp) (by decide)
  have hnum : strconv.Atoi (c :: l ++ '-' :: r) = none :=
    Atoi_none_of_tail c (l ++ '-' :: r) '-' (by simp) (by decide)
  rw [valuesOf_token _ tr hcomma hp, firstMatch_cronParsers, unrestricted_noMatch _ tr hstar,
    number_noMatch _ tr hnum, divisor_noMatch _ tr hslash,
    segmentRangeParser_split _ tr _ _ hstar (Split_two _ _ '-' hl hr), hA]
  simp [noMatch]

/-- C19. A name is translated only when it is a whole comma-separated token: for
all month names `m1`, `m2`, `NewCronTime("m1-m2", month)` returns an error, and
for all weekday names `d1`, `d2`, `NewCronTime("d1-d2", day of week)` returns an
error; `jan-mar` and `mon-fri` are rejected because the left side is not a
number. -/
theorem name_ranges_rejected :
    (∀ m₁ ∈ ["jan", "feb", "mar", "apr", "may", "jun", "jul", "aug", "sep", "oct", "nov",
        "dec"].map String.toList,
      ∀ m₂ ∈ ["jan", "feb", "mar", "apr", "may", "jun", "jul", "aug", "sep", "oct", "nov",
        "dec"].map String.toList,
      ∃ err, NewCronTime (m₁ ++ "-".toList ++ m₂) MonthRange = .error err) ∧
    (∀ d₁ ∈ ["mon", "tue", "wed", "thu", "fri", "sat", "sun"].map String.toList,
      ∀ d₂ ∈ ["mon", "tue", "wed", "thu", "fri", "sat", "sun"].map String.toList,
      ∃ err, NewCronTime (d₁ ++ "-".toList ++ d₂) DayOfWeekRange = .error err) ∧
    NewCronTime "jan-mar".toList MonthRange
      = .error ("could not parse cron time: error occurred for segment 0: "
          ++ "left value in range for segment is invalid").toList ∧
    NewCronTime "mon-fri".toList DayOfWeekRange
      = .error ("could not parse cron time: error occurred for segment 0: "
          ++ "left value in range for segment is invalid").toList := by
  have hnames : ∀ n ∈ ["jan", "feb", "mar", "apr", "may", "jun", "jul", "aug", "sep", "oct",
      "nov", "dec", "mon", "tue", "wed", "thu", "fri", "sat", "sun"].map String.toList,
      n ≠ [] ∧ ',' ∉ n ∧ '/' ∉ n ∧ '-' ∉ n ∧ strconv.Atoi n = none := by decide
  have key : ∀ (tr : TimeRange) (a b : GoString),
      (a ≠ [] ∧ ',' ∉ a ∧ '/' ∉ a ∧ '-' ∉ a ∧ strconv.Atoi a = none) →
      (b ≠ [] ∧ ',' ∉ b ∧ '/' ∉ b ∧ '-' ∉ b ∧ strconv.Atoi b = none) →
      ∃ err, NewCronTime (a ++ "-".toList ++ b) tr = .error err := by
    intro tr a b ha hb
    obtain ⟨hne, hac, has, had, haA⟩ := ha
    obtain ⟨-, hbc, hbs, hbd, -⟩ := hb
    cases a with
    | nil => exact absurd rfl hne
    | cons c l =>
      have e : c :: l ++ "-".toList ++ b = c :: l ++ '-' :: b := by simp
      rw [e, ← valuesOf_eq_none]
      refine valuesOf_range_bad_left tr c l b ?_ ?_ had hbd haA
      · intro hm
        rcases List.mem_append.mp hm with h | h
        · exact hac h
        · rcases List.mem_cons.mp h with h | h
          · revert h; decide
          · exact hbc h
      · intro hm
        rcases List.mem_append.mp hm with h | h
        · exact has h
        · rcases List.mem_cons.mp h with h | h
          · revert h; decide
          · exact hbs h
  refine ⟨?_, ?_, rfl, rfl⟩
  · intro m₁ h₁ m₂ h₂
    refine key MonthRange m₁ m₂ (hnames m₁ ?_) (hnames m₂ ?_)
    · revert m₁; decide
    · revert m₂; decide
  · intro d₁ h₁ d₂ h₂
    refine key DayOfWeekRange d₁ d₂ (hnames d₁ ?_) (hnames d₂ ?_)
    · revert d₁; decide
    · revert d₂; decide

theorem name_ranges_rejected_witness :
    (∃ err, NewCronTime ("sep".toList ++ "-".toList ++ "dec".toList) MonthRange = .error err) ∧
    (∃ err, NewCronTime ("sat".toList ++ "-".toList ++ "sun".toList) DayOfWeekRange
      = .error err) :=
  ⟨name_ranges_rejected.1 "sep".toList (by decide) "dec".toList (by decide),
    name_ranges_rejected.2.1 "sat".toList (by decide) "sun".toList (by decide)⟩

theorem ParseSpecial_nil (tr : TimeRange) : TimeRange.ParseSpecial tr [] = [] := by
  unfold TimeRange.ParseSpecial
  have hm : months.lookup ([] : GoString) = none := by decide
  have hd : days.lookup ([] : GoString) = none := by decide
  rw [hm, hd]
  split
  · rfl
  · split <;> rfl

/-- No parser of the chain accepts the empty token. -/
theorem segmentValues_nil (tr : TimeRange) : segmentValues cronParsers tr [] = none := by
  unfold segmentValues
  rw [ParseSpecial_nil, firstMatch_cronParsers, unrestricted_noMatch _ tr (by decide),
    number_noMatch [] tr rfl, divisor_noMatch _ tr (by simp),
    range_noMatch _ tr (by decide) (by simp)]
  simp [noMatch]

theorem segmentsValues_none_of_mem (parsers : List valueParser) (tr : TimeRange)
    (s : GoString) (hs : segmentValues parsers tr s = none) :
    ∀ segments : List GoString, s ∈ segments → segmentsValues parsers tr segments = none := by
  intro segments
  induction segments with
  | nil => intro h; simp at h
  | cons x later ih =>
    intro h
    unfold segmentsValues
    rcases List.mem_cons.mp h with e | e
    · rw [← e, hs]
    · rw [ih e]
      cases segmentValues parsers tr x <;> rfl

theorem empty_token_error (val : GoString) (tr : TimeRange)
    (h : [] ∈ strings.Split val ',') : ∃ err, NewCronTime val tr = .error err := by
  rw [← valuesOf_eq_none, valuesOf_NewCronTime]
  have hmem : [] ∈ cronSegments val tr := by
    unfold cronSegments
    rw [List.mem_flatMap]
    exact ⟨[], h, by rw [ParseSpecial_nil]; simp [strings.Split]⟩
  rw [segmentsValues_none_of_mem cronParsers tr [] (segmentValues_nil tr) _ hmem]
  rfl

/-- C20. An empty token is never accepted: for every field kind, `NewCronTime`
returns an error on every raw text that has an empty comma-separated token; the
empty text, a text with a leading or a trailing comma and a text with two
adjacent commas are such texts. -/
theorem empty_token_rejected (tr : TimeRange) :
    (∀ val : GoString, [] ∈ strings.Split val ',' → ∃ err, NewCronTime val tr = .error err) ∧
    (∃ err, NewCronTime [] tr = .error err) ∧
    (∀ s : GoString, ∃ err, NewCronTime (",".toList ++ s) tr = .error err) ∧
    (∀ s : GoString, ∃ err, NewCronTime (s ++ ",".toList) tr = .error err) ∧
    (∀ s t : GoString, ∃ err, NewCronTime (s ++ ",,".toList ++ t) tr = .error err) := by
  refine ⟨fun val h => empty_token_error val tr h, ?_, ?_, ?_, ?_⟩
  · exact empty_token_error [] tr (by simp [strings.Split])
  · intro s
    apply empty_token_error
    have e : ",".toList ++ s = [] ++ ',' :: s := by simp
    rw [e, Split_append_sep]
    simp [strings.Split]
  · intro s
    apply empty_token_error
    have e : s ++ ",".toList = s ++ ',' :: [] := by simp
    rw [e, Split_append_sep]
    simp [strings.Split]
  · intro s t
    apply empty_token_error
    have e : s ++ ",,".toList ++ t = s ++ ',' :: ([] ++ ',' :: t) := by simp
    rw [e, Split_append_sep, Split_append_sep]
    simp [strings.Split]

theorem empty_token_rejected_witness :
    [] ∈ strings.Split "1,,2".toList ',' ∧
    ∃ err, NewCronTime "1,,2".toList HourRange = .error err :=
  ⟨by decide, (empty_token_rejected HourRange).1 "1,,2".toList (by decide)⟩

/-! ## The report -/

theorem NewCronTime_ok_timeRange (val : GoString) (tr : TimeRange) (ct : cronTime)
    (h : NewCronTime val tr = .ok ct) : ct.timeRange = tr := by
  unfold NewCronTime at h
  cases hp : parseValues (cronSegments val tr) tr cronParsers with
  | error e => rw [hp] at h; cases h
  | ok vs =>
    rw [hp] at h
    injection h with h
    rw [← h]

/-- The names of the fields of an expression that was built. -/
theorem NewCronExpression_names (expr : GoString) (ce : CronExpression)
    (h : NewCronExpression expr = .ok ce) :
    ce.Minute.Name = MinuteRange ∧ ce.Hour.Name = HourRange ∧
      ce.DayOfMonth.Name = DayOfMonthRange ∧ ce.Month.Name = MonthRange ∧
      ce.DayOfWeek.Name = DayOfWeekRange := by
  by_cases hl : (strings.Split expr ' ').length = 6
  · obtain ⟨t0, t1, t2, t3, t4, t5, hs⟩ := length_six _ hl
    rw [NewCronExpression_six expr _ _ _ _ _ _ hs] at h
    cases h0 : NewCronTime t0 MinuteRange with
    | error e => rw [h0] at h; cases h
    | ok c0 =>
      cases h1 : NewCronTime t1 HourRange with
      | error e => rw [h0, h1] at h; cases h
      | ok c1 =>
        cases h2 : NewCronTime t2 DayOfMonthRange with
        | error e => rw [h0, h1, h2] at h; cases h
        | ok c2 =>
          cases h3 : NewCronTime t3 MonthRange with
          | error e => rw [h0, h1, h2, h3] at h; cases h
          | ok c3 =>
            cases h4 : NewCronTime t4 DayOfWeekRange with
            | error e => rw [h0, h1, h2, h3, h4] at h; cases h
            | ok c4 =>
              rw [h0, h1, h2, h3, h4] at h
              injection h with h
              subst h
              exact ⟨NewCronTime_ok_timeRange _ _ _ h0, NewCronTime_ok_timeRange _ _ _ h1,
                NewCronTime_ok_timeRange _ _ _ h2, NewCronTime_ok_timeRange _ _ _ h3,
                NewCronTime_ok_timeRange _ _ _ h4⟩
  · rw [NewCronExpression_not_six expr hl] at h
    cases h

/-- The values of a field joined by spaces hold no newline. -/
theorem Join_Itoa_no_newline : ∀ vs : List Int,
    '\n' ∉ strings.Join (vs.map strconv.Itoa) " ".toList := by
  intro vs
  induction vs with
  | nil => simp [strings.Join]
  | cons v rest ih =>
    have hv : '\n' ∉ strconv.Itoa v := Itoa_not_mem v '\n' (by decide) (by decide)
    cases rest with
    | nil => simpa [strings.Join] using hv
    | cons w more =>
      have e : strings.Join ((v :: w :: more).map strconv.Itoa) " ".toList
          = strconv.Itoa v ++ " ".toList ++ strings.Join ((w :: more).map strconv.Itoa) " ".toList := by
        simp [strings.Join]
      rw [e]
      intro hm
      rcases List.mem_append.mp hm with h | h
      · rcases List.mem_append.mp h with h | h
        · exact hv h
        · revert h; decide
      · exact ih h

/-- C12, as the code has it. For every successfully parsed expression,
`String()` is six newline-terminated records in the order minute, hour, day of
month, month, day of week, command: each record is the name, left-aligned and
followed by spaces up to a width of 14 characters, then the values of the field
in decimal joined by single spaces (for the last record, the raw command), then a
newline. When the command holds no newline these are exactly six lines: the
report has exactly six newlines. For `*/15 0 1,15 * 1-5 /usr/bin/find` the
report is the one the test expects. -/
theorem report_format (expr : GoString) (ce : CronExpression)
    (h : NewCronExpression expr = .ok ce) :
    ce.String
      = "minute        ".toList
          ++ strings.Join (ce.Minute.Values.map strconv.Itoa) " ".toList ++ "\n".toList
        ++ ("hour          ".toList
          ++ strings.Join (ce.Hour.Values.map strconv.Itoa) " ".toList ++ "\n".toList)
        ++ ("day of month  ".toList
          ++ strings.Join (ce.DayOfMonth.Values.map strconv.Itoa) " ".toList ++ "\n".toList)
        ++ ("month         ".toList
          ++ strings.Join (ce.Month.Values.map strconv.Itoa) " ".toList ++ "\n".toList)
        ++ ("day of week   ".toList
          ++ strings.Join (ce.DayOfWeek.Values.map strconv.Itoa) " ".toList ++ "\n".toList)
        ++ ("command       ".toList ++ ce.Command ++ "\n".toList) ∧
    (∀ p ∈ [("minute", "minute        "), ("hour", "hour          "),
        ("day of month", "day of month  "), ("month", "month         "),
        ("day of week", "day of week   "), ("command", "command       ")],
      String.toList p.2 = String.toList p.1 ++ List.replicate (14 - p.1.length) ' ' ∧
      (String.toList p.2).length = 14) ∧
    ('\n' ∉ ce.Command → ce.String.count '\n' = 6) ∧
    (NewCronExpression "*/15 0 1,15 * 1-5 /usr/bin/find".toList).map CronExpression.String
      = .ok ("minute        0 15 30 45\n"
          ++ "hour          0\n"
          ++ "day of month  1 15\n"
          ++ "month         1 2 3 4 5 6 7 8 9 10 11 12\n"
          ++ "day of week   1 2 3 4 5\n"
          ++ "command       /usr/bin/find\n").toList := by
  obtain ⟨n0, n1, n2, n3, n4⟩ := NewCronExpression_names expr ce h
  have hform : ce.String
      = "minute        ".toList
          ++ strings.Join (ce.Minute.Values.map strconv.Itoa) " ".toList ++ "\n".toList
        ++ ("hour          ".toList
          ++ strings.Join (ce.Hour.Values.map strconv.Itoa) " ".toList ++ "\n".toList)
        ++ ("day of month  ".toList
          ++ strings.Join (ce.DayOfMonth.Values.map strconv.Itoa) " ".toList ++ "\n".toList)
        ++ ("month         ".toList
          ++ strings.Join (ce.Month.Values.map strconv.Itoa) " ".toList ++ "\n".toList)
        ++ ("day of week   ".toList
          ++ strings.Join (ce.DayOfWeek.Values.map strconv.Itoa) " ".toList ++ "\n".toList)
        ++ ("command       ".toList ++ ce.Command ++ "\n".toList) := by
    unfold CronExpression.String
    rw [n0, n1, n2, n3, n4]
    rfl
  refine ⟨hform, by decide, ?_, rfl⟩
  intro hcmd
  rw [hform]
  have c0 := List.count_eq_zero_of_not_mem (Join_Itoa_no_newline ce.Minute.Values)
  have c1 := List.count_eq_zero_of_not_mem (Join_Itoa_no_newline ce.Hour.Values)
  have c2 := List.count_eq_zero_of_not_mem (Join_Itoa_no_newline ce.DayOfMonth.Values)
  have c3 := List.count_eq_zero_of_not_mem (Join_Itoa_no_newline ce.Month.Values)
  have c4 := List.count_eq_zero_of_not_mem (Join_Itoa_no_newline ce.DayOfWeek.Values)
  have c5 := List.count_eq_zero_of_not_mem hcmd
  have k0 : List.count '\n' "minute        ".toList = 0 := by decide
  have k1 : List.count '\n' "hour          ".toList = 0 := by decide
  have k2 : List.count '\n' "day of month  ".toList = 0 := by decide
  have k3 : List.count '\n' "month         ".toList = 0 := by decide
  have k4 : List.count '\n' "day of week   ".toList = 0 := by decide
  have k5 : List.count '\n' "command       ".toList = 0 := by decide
  have kn : List.count '\n' "\n".toList = 1 := by decide
  simp only [List.count_append, c0, c1, c2, c3, c4, c5, k0, k1, k2, k3, k4, k5, kn]

theorem report_format_witness :
    NewCronExpression "*/15 0 1,15 * 1-5 /usr/bin/find".toList
      = .ok ⟨⟨["*/15".toList], MinuteRange, [0, 15, 30, 45]⟩,
          ⟨["0".toList], HourRange, [0]⟩,
          ⟨["1".toList, "15".toList], DayOfMonthRange, [1, 15]⟩,
          ⟨["*".toList], MonthRange, [1, 2, 3, 4, 5, 6, 7, 8, 9, 10, 11, 12]⟩,
          ⟨["1-5".toList], DayOfWeekRange, [1, 2, 3, 4, 5]⟩,
          "/usr/bin/find".toList⟩ ∧
    '\n' ∉ "/usr/bin/find".toList ∧
    (CronExpression.String ⟨⟨["*/15".toList], MinuteRange, [0, 15, 30, 45]⟩,
          ⟨["0".toList], HourRange, [0]⟩,
          ⟨["1".toList, "15".toList], DayOfMonthRange, [1, 15]⟩,
          ⟨["*".toList], MonthRange, [1, 2, 3, 4, 5, 6, 7, 8, 9, 10, 11, 12]⟩,
          ⟨["1-5".toList], DayOfWeekRange, [1, 2, 3, 4, 5]⟩,
          "/usr/bin/find".toList⟩).count '\n' = 6 :=
  ⟨rfl, by decide,
    (report_format "*/15 0 1,15 * 1-5 /usr/bin/find".toList _ rfl).2.2.1 (by decide)⟩

set_option maxRecDepth 20000 in
/-- C12 does not hold for every parsed expression: the command is the sixth
space-separated token, kept unchanged, and it may hold a newline. The text
`0 0 1 1 0 a` + newline + `b` parses with that two-line command and its report
has seven newline-terminated lines, as has the report of `* * * * * a` + newline
+ `b`. -/
theorem report_command_newline :
    strings.Split "0 0 1 1 0 a\nb".toList ' '
      = ["0".toList, "0".toList, "1".toList, "1".toList, "0".toList, "a\nb".toList] ∧
    (NewCronExpression "0 0 1 1 0 a\nb".toList).map CronExpression.String
      = .ok ("minute        0\n"
          ++ "hour          0\n"
          ++ "day of month  1\n"
          ++ "month         1\n"
          ++ "day of week   0\n"
          ++ "command       a\n"
          ++ "b\n").toList ∧
    (NewCronExpression "0 0 1 1 0 a\nb".toList).map
        (fun ce => (CronExpression.String ce).count '\n') = .ok 7 ∧
    (NewCronExpression "* * * * * a\nb".toList).map
        (fun ce => (ce.Command, (CronExpression.String ce).count '\n'))
      = .ok ("a\nb".toList, 7) := by
  refine ⟨rfl, rfl, rfl, rfl⟩

/-! ## Tokens with a divisor -/

theorem Atoi_none_of_mem (s : GoString) (x : Char) (hx : x ∈ s)
    (hnd : strconv.isDigit x = false) (h1 : x ≠ '-') (h2 : x ≠ '+') :
    strconv.Atoi s = none := by
  cases s with
  | nil => simp at hx
  | cons c t =>
    rcases List.mem_cons.mp hx with e | e
    · subst e
      exact Atoi_none_of_head x t h1 h2 hnd
    · exact Atoi_none_of_tail c t x e hnd

theorem Join_cons_head (c : Char) (p : GoString) (rest : List GoString) (sep : GoString) :
    strings.Join ((c :: p) :: rest) sep = c :: strings.Join (p :: rest) sep := by
  cases rest with
  | nil => rfl
  | cons q more => simp [strings.Join]

/-- Splitting is undone by joining, and no piece holds the separator. -/
theorem Split_spec (sep : Char) : ∀ s : GoString,
    strings.Join (strings.Split s sep) [sep] = s ∧ ∀ p ∈ strings.Split s sep, sep ∉ p := by
  intro s
  induction s with
  | nil => simp [strings.Split, strings.Join]
  | cons c cs ih =>
    obtain ⟨p, r, hpr⟩ : ∃ p r, strings.Split cs sep = p :: r := by
      cases h : strings.Split cs sep with
      | nil => exact absurd h (Split_ne_nil cs sep)
      | cons p r => exact ⟨p, r, rfl⟩
    rw [hpr] at ih
    by_cases hc : c = sep
    · have e : strings.Split (c :: cs) sep = [] :: p :: r := by
        simp [strings.Split, hc, hpr]
      rw [e]
      refine ⟨?_, ?_⟩
      · have : strings.Join ([] :: p :: r) [sep] = sep :: strings.Join (p :: r) [sep] := by
          simp [strings.Join]
        rw [this, ih.1, hc]
      · intro q hq
        rcases List.mem_cons.mp hq with h | h
        · rw [h]; simp
        · exact ih.2 q h
    · have e : strings.Split (c :: cs) sep = (c :: p) :: r := by
        simp [strings.Split, hc, hpr]
      rw [e]
      refine ⟨by rw [Join_cons_head, ih.1], ?_⟩
      intro q hq
      rcases List.mem_cons.mp hq with h | h
      · rw [h]
        intro hm
        rcases List.mem_cons.mp hm with h' | h'
        · exact hc h'.symm
        · exact ih.2 p (by simp) h'
      · exact ih.2 q (List.mem_cons_of_mem _ h)

theorem Split_eq_two_iff (s l r : GoString) (sep : Char) :
    strings.Split s sep = [l, r] ↔ (s = l ++ sep :: r ∧ sep ∉ l ∧ sep ∉ r) := by
  constructor
  · intro h
    obtain ⟨hj, hp⟩ := Split_spec sep s
    rw [h] at hj hp
    refine ⟨?_, hp l (by simp), hp r (by simp)⟩
    rw [← hj]
    simp [strings.Join]
  · rintro ⟨rfl, hl, hr⟩
    exact Split_two l r sep hl hr

/-- When the base of a divisor resolves: it is `*`, or it splits at `-` into
exactly two sides that are numbers within the bounds, in order. -/
theorem divisorBase_ok_iff (base : GoString) (tr : TimeRange) :
    (∃ rv, divisorBase base tr = .ok rv) ↔
      (base = "*".toList ∨ ∃ l r a b, strings.Split base '-' = [l, r] ∧
        strconv.Atoi l = some a ∧ strconv.Atoi r = some b ∧
        (rangeMapAt tr).Min ≤ a ∧ a ≤ b ∧ b ≤ (rangeMapAt tr).Max) := by
  by_cases hstar : base = "*".toList
  · subst hstar
    exact ⟨fun _ => Or.inl rfl, fun _ => ⟨_, divisorBase_star tr⟩⟩
  · have hu := unrestricted_noMatch base tr hstar
    by_cases hsp : ∃ l r, strings.Split base '-' = [l, r]
    · obtain ⟨l, r, hlr⟩ := hsp
      have hrange := segmentRangeParser_split base tr l r hstar hlr
      have hR : (base = "*".toList ∨ ∃ l' r' a b, strings.Split base '-' = [l', r'] ∧
          strconv.Atoi l' = some a ∧ strconv.Atoi r' = some b ∧
          (rangeMapAt tr).Min ≤ a ∧ a ≤ b ∧ b ≤ (rangeMapAt tr).Max) ↔
          (∃ a b, strconv.Atoi l = some a ∧ strconv.Atoi r = some b ∧
            (rangeMapAt tr).Min ≤ a ∧ a ≤ b ∧ b ≤ (rangeMapAt tr).Max) := by
        constructor
        · rintro (h | ⟨l', r', a, b, hs, h1⟩)
          · exact absurd h hstar
          · rw [hlr] at hs
            simp only [List.cons.injEq, and_true] at hs
            obtain ⟨rfl, rfl⟩ := hs
            exact ⟨a, b, h1⟩
        · rintro ⟨a, b, h⟩
          exact Or.inr ⟨l, r, a, b, hlr, h⟩
      rw [hR]
      unfold divisorBase
      rw [hu, hrange]
      cases hl : strconv.Atoi l with
      | none => simp [noMatch]
      | some a =>
        cases hr : strconv.Atoi r with
        | none => simp [noMatch]
        | some b =>
          by_cases hwa : (rangeMapAt tr).IsWithinBounds a = true
          · by_cases hwb : (rangeMapAt tr).IsWithinBounds b = true
            · have ha' := (IsWithinBounds_iff _ _).mp hwa
              have hb' := (IsWithinBounds_iff _ _).mp hwb
              by_cases hab : b < a
              · simp [noMatch, hwa, hwb, hab]
              · simp [noMatch, hwa, hwb, hab]
                omega
            · have hb' : ¬ _ := fun h => hwb ((IsWithinBounds_iff _ _).mpr h)
              simp [noMatch, hwa, hwb]
              omega
          · have ha' : ¬ _ := fun h => hwa ((IsWithinBounds_iff _ _).mpr h)
            simp [noMatch, hwa]
            omega
    · have hno : segmentRangeParser base tr = noMatch := by
        unfold segmentRangeParser
        rw [hu]
        simp only [noMatch, Bool.false_eq_true, if_false]
        split
        · rename_i x y hxy
          exact absurd ⟨x, y, hxy⟩ hsp
        · rfl
      unfold divisorBase
      rw [hu, hno]
      simp only [noMatch, Bool.false_eq_true, if_false, hstar, false_or]
      constructor
      · rintro ⟨rv, h⟩
        cases h
      · rintro ⟨l, r, a, b, hlr, -⟩
        exact absurd ⟨l, r, hlr⟩ hsp

/-- What `NewCronTime` makes of a comma-free token `base/step` with one `/`. -/
theorem valuesOf_divisor_token (tr : TimeRange) (base step : GoString)
    (hb : '/' ∉ base) (hs : '/' ∉ step) (hcb : ',' ∉ base) (hcs : ',' ∉ step) :
    valuesOf (NewCronTime (base ++ '/' :: step) tr)
      = match divisorBase base tr with
        | .error _ => none
        | .ok rv =>
          match strconv.Atoi step with
          | none => none
          | some n => some (sortSlice (divisorFilter rv n)) := by
  have hcomma : ',' ∉ base ++ '/' :: step := by
    intro hm
    rcases List.mem_append.mp hm with h | h
    · exact hcb h
    · rcases List.mem_cons.mp h with h | h
      · revert h; decide
      · exact hcs h
  have hp : TimeRange.ParseSpecial tr (base ++ '/' :: step) = base ++ '/' :: step :=
    ParseSpecial_low tr _ '/' (by simp) (by decide)
  have hstar : base ++ '/' :: step ≠ "*".toList := by
    intro e
    have : '/' ∈ base ++ '/' :: step := by simp
    rw [e] at this
    revert this
    decide
  have hA : strconv.Atoi (base ++ '/' :: step) = none :=
    Atoi_none_of_mem _ '/' (by simp) (by decide) (by decide) (by decide)
  rw [valuesOf_token _ tr hcomma hp, firstMatch_cronParsers, unrestricted_noMatch _ tr hstar,
    number_noMatch _ tr hA, segmentDivisorParser_split _ tr _ _ (Split_two _ _ '/' hb hs)]
  cases divisorBase base tr with
  | error e => simp [noMatch]
  | ok rv =>
    cases strconv.Atoi step with
    | none => simp [noMatch]
    | some n => simp [noMatch]

theorem NewCronTime_ok_iff_valuesOf (val : GoString) (tr : TimeRange) :
    (∃ c, NewCronTime val tr = .ok c) ↔ valuesOf (NewCronTime val tr) ≠ none := by
  cases NewCronTime val tr with
  | error e => simp [valuesOf]
  | ok c => simp [valuesOf]

/-- When `NewCronTime` accepts a comma-free token `base/step` with one `/`,
stated with the pieces `strings.Split` gives for the base. -/
theorem divisor_token_ok (tr : TimeRange) (base step : GoString)
    (hb : '/' ∉ base) (hs : '/' ∉ step) (hcb : ',' ∉ base) (hcs : ',' ∉ step) :
    (∃ c, NewCronTime (base ++ '/' :: step) tr = .ok c) ↔
      ((∃ n, strconv.Atoi step = some n) ∧ ∃ rv, divisorBase base tr = .ok rv) := by
  rw [NewCronTime_ok_iff_valuesOf, valuesOf_divisor_token tr base step hb hs hcb hcs]
  cases divisorBase base tr with
  | error e => simp
  | ok rv =>
    cases strconv.Atoi step with
    | none => simp
    | some n => simp

/-- C17, as the code has it. For every field kind and every comma-free token
`base/step` with exactly one `/`, `NewCronTime` succeeds if and only if `step`
parses as an integer and `base` is either `*` or a range `l-r` with exactly one
`-` (neither side holds a `-`, so no side carries a minus sign) whose two sides
parse as integers within the bounds of the kind with `l ≤ r`. A base that is a
plain number and a step that is not a number are errors, as for `5/2` and
`*/x`. -/
theorem divisor_token_iff (tr : TimeRange) (d : TimeRangeData)
    (hd : DataForTimeRange tr = .ok d) (base step : GoString)
    (hb : '/' ∉ base) (hs : '/' ∉ step) (hcb : ',' ∉ base) (hcs : ',' ∉ step) :
    ((∃ c, NewCronTime (base ++ "/".toList ++ step) tr = .ok c) ↔
      ((∃ n, strconv.Atoi step = some n) ∧
        (base = "*".toList ∨ ∃ l r a b, base = l ++ "-".toList ++ r ∧ '-' ∉ l ∧ '-' ∉ r ∧
          strconv.Atoi l = some a ∧ strconv.Atoi r = some b ∧
          d.Min ≤ a ∧ a ≤ b ∧ b ≤ d.Max))) ∧
    ((∃ n, strconv.Atoi base = some n) →
      ∃ err, NewCronTime (base ++ "/".toList ++ step) tr = .error err) ∧
    (strconv.Atoi step = none →
      ∃ err, NewCronTime (base ++ "/".toList ++ step) tr = .error err) ∧
    (∃ err, NewCronTime "5/2".toList tr = .error err) ∧
    (∃ err, NewCronTime "*/x".toList tr = .error err) := by
  obtain ⟨hr, -⟩ := DataForTimeRange_ok tr d hd
  have main : ∀ base step : GoString, '/' ∉ base → '/' ∉ step → ',' ∉ base → ',' ∉ step →
      ((∃ c, NewCronTime (base ++ "/".toList ++ step) tr = .ok c) ↔
        ((∃ n, strconv.Atoi step = some n) ∧
          (base = "*".toList ∨ ∃ l r a b, base = l ++ "-".toList ++ r ∧ '-' ∉ l ∧ '-' ∉ r ∧
            strconv.Atoi l = some a ∧ strconv.Atoi r = some b ∧
            d.Min ≤ a ∧ a ≤ b ∧ b ≤ d.Max))) := by
    intro base step hb hs hcb hcs
    have e : base ++ "/".toList ++ step = base ++ '/' :: step := by simp
    rw [e, divisor_token_ok tr base step hb hs hcb hcs, divisorBase_ok_iff, hr]
    have hside : ∀ l r : GoString, (strings.Split base '-' = [l, r]) ↔
        (base = l ++ "-".toList ++ r ∧ '-' ∉ l ∧ '-' ∉ r) := by
      intro l r
      rw [Split_eq_two_iff]
      have : l ++ "-".toList ++ r = l ++ '-' :: r := by simp
      rw [this]
    simp only [hside, and_assoc]
  have hnot : ∀ v : GoString, (¬ ∃ c, NewCronTime v tr = .ok c) → ∃ err, NewCronTime v tr = .error err := by
    intro v hv
    cases hres : NewCronTime v tr with
    | error e => exact ⟨e, rfl⟩
    | ok c => exact absurd ⟨c, hres⟩ hv
  have hplain : ∀ base step : GoString, '/' ∉ base → '/' ∉ step → ',' ∉ base → ',' ∉ step →
      (∃ n, strconv.Atoi base = some n) →
      ∃ err, NewCronTime (base ++ "/".toList ++ step) tr = .error err := by
    intro base step hb hs hcb hcs hn
    apply hnot
    rw [main base step hb hs hcb hcs]
    rintro ⟨-, hbase | ⟨l, r, a, b, hbase, -, -, hl, -⟩⟩
    · obtain ⟨n, hn⟩ := hn
      have hnone : strconv.Atoi "*".toList = none := by decide
      rw [hbase, hnone] at hn
      cases hn
    · obtain ⟨n, hn⟩ := hn
      have e : l ++ "-".toList ++ r = l ++ '-' :: r := by simp
      rw [hbase, e] at hn
      cases l with
      | nil => simp [strconv.Atoi] at hl
      | cons c t =>
        rw [List.cons_append, Atoi_none_of_tail c (t ++ '-' :: r) '-' (by simp) (by decide)] at hn
        cases hn
  have hstep : ∀ base step : GoString, '/' ∉ base → '/' ∉ step → ',' ∉ base → ',' ∉ step →
      strconv.Atoi step = none →
      ∃ err, NewCronTime (base ++ "/".toList ++ step) tr = .error err := by
    intro base step hb hs hcb hcs hn
    apply hnot
    rw [main base step hb hs hcb hcs, hn]
    rintro ⟨⟨n, h⟩, -⟩
    cases h
  refine ⟨main base step hb hs hcb hcs, hplain base step hb hs hcb hcs,
    hstep base step hb hs hcb hcs, ?_, ?_⟩
  · exact hplain "5".toList "2".toList (by decide) (by decide) (by decide) (by decide)
      ⟨5, by decide⟩
  · exact hstep "*".toList "x".toList (by decide) (by decide) (by decide) (by decide)
      (by decide)

theorem divisor_token_iff_witness :
    DataForTimeRange DayOfMonthRange = .ok ⟨1, 31⟩ ∧
    ((∃ c, NewCronTime ("10-20".toList ++ "/".toList ++ "5".toList) DayOfMonthRange = .ok c) ↔
      ((∃ n, strconv.Atoi "5".toList = some n) ∧
        ("10-20".toList = "*".toList ∨ ∃ l r a b, "10-20".toList = l ++ "-".toList ++ r ∧
          '-' ∉ l ∧ '-' ∉ r ∧ strconv.Atoi l = some a ∧ strconv.Atoi r = some b ∧
          (1 : Int) ≤ a ∧ a ≤ b ∧ b ≤ 31))) ∧
    NewCronTime ("10-20".toList ++ "/".toList ++ "5".toList) DayOfMonthRange
      = .ok ⟨["10-20/5".toList], DayOfMonthRange, [10, 15, 20]⟩ ∧
    (∃ err, NewCronTime ("7".toList ++ "/".toList ++ "5".toList) DayOfMonthRange = .error err) ∧
    (∃ err, NewCronTime ("*".toList ++ "/".toList ++ "x".toList) DayOfMonthRange
      = .error err) :=
  ⟨rfl,
    (divisor_token_iff DayOfMonthRange ⟨1, 31⟩ rfl "10-20".toList "5".toList
      (by decide) (by decide) (by decide) (by decide)).1,
    rfl,
    (divisor_token_iff DayOfMonthRange ⟨1, 31⟩ rfl "7".toList "5".toList
      (by decide) (by decide) (by decide) (by decide)).2.1 ⟨7, by decide⟩,
    (divisor_token_iff DayOfMonthRange ⟨1, 31⟩ rfl "*".toList "x".toList
      (by decide) (by decide) (by decide) (by decide)).2.2.1 (by decide)⟩

/-- C17 does not hold for a base whose left side carries a sign: in `-0-5/2` the
step `2` and the sides `-0` and `5` of the base parse as the integers 2, 0 and 5,
which are within the bounds 0..59 of the minute kind and in order, yet the base
splits at `-` into three pieces, no parser resolves it, and `NewCronTime` returns
an error. -/
theorem divisor_token_signed_side :
    "-0-5/2".toList = "-0".toList ++ "-".toList ++ "5".toList ++ "/".toList ++ "2".toList ∧
    '/' ∉ "-0-5".toList ∧ '/' ∉ "2".toList ∧ ',' ∉ "-0-5/2".toList ∧
    strconv.Atoi "2".toList = some 2 ∧
    strconv.Atoi "-0".toList = some 0 ∧
    strconv.Atoi "5".toList = some 5 ∧
    DataForTimeRange MinuteRange = .ok ⟨0, 59⟩ ∧
    strings.Split "-0-5".toList '-' = [[], "0".toList, "5".toList] ∧
    NewCronTime "-0-5/2".toList MinuteRange
      = .error ("could not parse cron time: error occurred for segment 0: "
          ++ "left value in segment needs to be a range or unrestricted (*)").toList := by
  refine ⟨rfl, by decide, by decide, by decide, rfl, rfl, rfl, rfl, rfl, rfl⟩

/-! ## The segment index of an error -/

/-- The segments a comma-free token gives: `0` and `7` for `sun` under the
day-of-week kind, and one segment otherwise. -/
theorem expand_cases (tr : TimeRange) (t : GoString) (hc : ',' ∉ t) :
    (tr = DayOfWeekRange ∧ t = DayOfWeekSunday ∧
      strings.Split (TimeRange.ParseSpecial tr t) ',' = ["0".toList, "7".toList]) ∨
    (¬ (tr = DayOfWeekRange ∧ t = DayOfWeekSunday) ∧
      ∃ g, strings.Split (TimeRange.ParseSpecial tr t) ',' = [g]) := by
  by_cases hsun : tr = DayOfWeekRange ∧ t = DayOfWeekSunday
  · obtain ⟨rfl, rfl⟩ := hsun
    exact Or.inl ⟨rfl, rfl, rfl⟩
  · refine Or.inr ⟨hsun, TimeRange.ParseSpecial tr t, Split_of_not_mem _ ',' ?_⟩
    have hI : ∀ v : Int, ',' ∉ strconv.Itoa v :=
      fun v => Itoa_not_mem v ',' (by decide) (by decide)
    unfold TimeRange.ParseSpecial
    by_cases hm : tr = MonthRange
    · rw [if_pos hm]
      cases months.lookup t with
      | none => exact hc
      | some v => exact hI v
    · rw [if_neg hm]
      by_cases hd : tr = DayOfWeekRange
      · rw [if_pos hd]
        have hts : t ≠ DayOfWeekSunday := fun e => hsun ⟨hd, e⟩
        cases days.lookup t with
        | none => exact hc
        | some v => simp only [hts, if_false]; exact hI v
      · rw [if_neg hd]
        exact hc

theorem parseValuesLoop_sun (i : Nat) (more : List GoString) (acc : List Int) :
    parseValuesLoop i ("0".toList :: "7".toList :: more) DayOfWeekRange cronParsers acc
      = parseValuesLoop (i + 2) more DayOfWeekRange cronParsers (acc ++ [0] ++ [7]) := by
  rfl

theorem segmentsValues_single (tr : TimeRange) (g : GoString) :
    segmentsValues cronParsers tr [g] = (segmentValues cronParsers tr g).map (fun v => v ++ []) := by
  unfold segmentsValues
  cases segmentValues cronParsers tr g <;> simp [segmentsValues]

/-- Where the loop of `parseValues` fails over the segments of a list of
comma-free tokens: at the first token that does not parse, with the index of its
segment, which counts two segments for every `sun` of the day-of-week kind
before it. -/
theorem parseValuesLoop_error (tr : TimeRange) :
    ∀ (tokens : List GoString) (i : Nat) (acc : List Int) (err : GoString),
      (∀ t ∈ tokens, ',' ∉ t) →
      parseValuesLoop i
        (tokens.flatMap (fun t => strings.Split (TimeRange.ParseSpecial tr t) ',')) tr
        cronParsers acc = .error err →
      ∃ (before : List GoString) (token : GoString) (after : List GoString),
        tokens = before ++ token :: after ∧
        (∀ x ∈ before, segmentsValues cronParsers tr
          (strings.Split (TimeRange.ParseSpecial tr x) ',') ≠ none) ∧
        segmentsValues cronParsers tr
          (strings.Split (TimeRange.ParseSpecial tr token) ',') = none ∧
        reportsSegment (i + before.length
          + (if tr = DayOfWeekRange then before.count DayOfWeekSunday else 0)) err := by
  intro tokens
  induction tokens with
  | nil =>
    intro i acc err _ h
    simp [parseValuesLoop] at h
  | cons t rest ih =>
    intro i acc err hts h
    have hrest : ∀ x ∈ rest, ',' ∉ x := fun x hx => hts x (List.mem_cons_of_mem _ hx)
    rw [List.flatMap_cons] at h
    rcases expand_cases tr t (hts t (by simp)) with ⟨htr, ht, hexp⟩ | ⟨hns, g, hexp⟩
    · rw [hexp] at h
      subst htr
      rw [List.cons_append, List.cons_append, List.nil_append, parseValuesLoop_sun] at h
      obtain ⟨before, token, after, htok, hbefore, htoken, hrep⟩ := ih (i + 2) _ err hrest h
      refine ⟨t :: before, token, after, by rw [htok]; rfl, ?_, htoken, ?_⟩
      · intro x hx
        rcases List.mem_cons.mp hx with e | e
        · rw [e, hexp]
          decide
        · exact hbefore x e
      · rw [if_pos rfl] at hrep ⊢
        rw [ht, List.count_cons_self, List.length_cons]
        have e : i + (before.length + 1) + (List.count DayOfWeekSunday before + 1)
            = i + 2 + before.length + List.count DayOfWeekSunday before := by omega
        rw [e]
        exact hrep
    · rw [hexp, List.cons_append, List.nil_append] at h
      unfold parseValuesLoop at h
      have hsv := segmentsValues_single tr g
      unfold segmentValues at hsv
      cases hf : firstMatch cronParsers (TimeRange.ParseSpecial tr g) tr with
      | none =>
        rw [hf] at h hsv
        injection h with h
        refine ⟨[], t, rest, rfl, by simp, by rw [hexp, hsv]; rfl, ?_⟩
        simp only [List.length_nil, List.count_nil, ite_self, Nat.add_zero]
        exact Or.inl h.symm
      | some r =>
        rw [hf] at h hsv
        rcases r with ⟨m, rv, _ | e⟩
        · simp only [] at h hsv
          obtain ⟨before, token, after, htok, hbefore, htoken, hrep⟩ :=
            ih (i + 1) _ err hrest h
          refine ⟨t :: before, token, after, by rw [htok]; rfl, ?_, htoken, ?_⟩
          · intro x hx
            rcases List.mem_cons.mp hx with e | e
            · rw [e, hexp, hsv]
              simp
            · exact hbefore x e
          · by_cases hd : tr = DayOfWeekRange
            · have hts' : t ≠ DayOfWeekSunday := fun e => hns ⟨hd, e⟩
              rw [if_pos hd] at hrep ⊢
              rw [List.count_cons_of_ne (Ne.symm hts'), List.length_cons]
              have e : i + (before.length + 1) + List.count DayOfWeekSunday before
                  = i + 1 + before.length + List.count DayOfWeekSunday before := by omega
              rw [e]
              exact hrep
            · rw [if_neg hd] at hrep ⊢
              rw [List.length_cons]
              have e : i + (before.length + 1) + 0 = i + 1 + before.length + 0 := by omega
              rw [e]
              exact hrep
        · simp only [] at h hsv
          injection h with h
          refine ⟨[], t, rest, rfl, by simp, by rw [hexp, hsv]; rfl, ?_⟩
          simp only [List.length_nil, List.count_nil, ite_self, Nat.add_zero]
          exact Or.inr ⟨e, h.symm⟩

/-- C15, as the code has it. Whenever `NewCronTime` fails on a raw field text,
the error is `could not parse cron time: ` followed by an error that reports the
zero-based index of the offending segment among the segments built from the
text: the first comma-separated token that does not parse on its own (all tokens
before it do), found at its index among the tokens of the raw text plus one for
every `sun` token before it under the day-of-week kind, since such a token is
replaced by the two segments `0` and `7`. For the other kinds, and when no `sun`
comes before the token, this is the index of the token in the raw text. -/
theorem error_segment_index (val : GoString) (tr : TimeRange) (err : GoString)
    (h : NewCronTime val tr = .error err) :
    ∃ (before : List GoString) (token : GoString) (after : List GoString) (inner : GoString),
      strings.Split val ',' = before ++ token :: after ∧
      (∀ x ∈ before, ∃ c, NewCronTime x tr = .ok c) ∧
      (∃ e, NewCronTime token tr = .error e) ∧
      err = "could not parse cron time: ".toList ++ inner ∧
      reportsSegment
        (before.length + (if tr = DayOfWeekRange then before.count "sun".toList else 0))
        inner := by
  have hfree : ∀ t ∈ strings.Split val ',', ',' ∉ t := (Split_spec ',' val).2
  unfold NewCronTime parseValues at h
  cases hl : parseValuesLoop 0 (cronSegments val tr) tr cronParsers [] with
  | ok vs => rw [hl] at h; cases h
  | error inner =>
    rw [hl] at h
    injection h with h
    unfold cronSegments at hl
    obtain ⟨before, token, after, htok, hbefore, htoken, hrep⟩ :=
      parseValuesLoop_error tr _ 0 [] inner hfree hl
    have hb : ∀ x ∈ before, ',' ∉ x := fun x hx => hfree x (by rw [htok]; simp [hx])
    have ht : ',' ∉ token := hfree token (by rw [htok]; simp)
    refine ⟨before, token, after, inner, htok, ?_, ?_, h.symm, ?_⟩
    · intro x hx
      rw [NewCronTime_ok_iff_valuesOf, valuesOf_single x tr (hb x hx)]
      have := hbefore x hx
      cases hs : segmentsValues cronParsers tr
          (strings.Split (TimeRange.ParseSpecial tr x) ',') with
      | none => exact absurd hs this
      | some v => simp
    · rw [← valuesOf_eq_none, valuesOf_single token tr ht, htoken]
      rfl
    · rw [Nat.zero_add] at hrep
      exact hrep

theorem error_segment_index_witness :
    NewCronTime "1,sun,sun,8,2".toList DayOfWeekRange
      = .error ("could not parse cron time: error occurred for segment 5: "
          ++ "value for segment out of bounds").toList ∧
    ∃ (before : List GoString) (token : GoString) (after : List GoString) (inner : GoString),
      strings.Split "1,sun,sun,8,2".toList ',' = before ++ token :: after ∧
      (∀ x ∈ before, ∃ c, NewCronTime x DayOfWeekRange = .ok c) ∧
      (∃ e, NewCronTime token DayOfWeekRange = .error e) ∧
      ("could not parse cron time: error occurred for segment 5: "
          ++ "value for segment out of bounds").toList
        = "could not parse cron time: ".toList ++ inner ∧
      reportsSegment
        (before.length
          + (if DayOfWeekRange = DayOfWeekRange then before.count "sun".toList else 0))
        inner :=
  ⟨rfl, error_segment_index "1,sun,sun,8,2".toList DayOfWeekRange _ rfl⟩

/-- C15 does not hold when a `sun` token comes first under the day-of-week kind:
in `sun,x` the token `sun` parses and the offending token `x` has index 1 among
the tokens of the raw text (on its own it is reported as segment 0), but the
error for `sun,x` reports segment 2. -/
theorem error_index_after_sun :
    strings.Split "sun,x".toList ',' = ["sun".toList, "x".toList] ∧
    NewCronTime "sun".toList DayOfWeekRange
      = .ok ⟨["0".toList, "7".toList], DayOfWeekRange, [0, 7]⟩ ∧
    NewCronTime "x".toList DayOfWeekRange
      = .error "could not parse cron time: unknown value for segment 0".toList ∧
    NewCronTime "sun,x".toList DayOfWeekRange
      = .error "could not parse cron time: unknown value for segment 2".toList ∧
    ¬ reportsSegment 1 "unknown value for segment 2".toList := by
  refine ⟨rfl, rfl, rfl, rfl, ?_⟩
  rintro (h | ⟨e, h⟩)
  · revert h; decide
  · have h' := congrArg List.head? h
    change some 'u' = some 'e' at h'
    exact absurd h' (by decide)

end Deliveroo
